import Mathlib

/-!
Verification of the noise-weighted inner-product and overlap engine of
`lalinference/rapid_pe/lalsimutils.py` (the `InnerProduct` class family).

The Python floats are modelled by rationals; complex samples by pairs of
rationals (`Cq`).  The external LAL FFT plans and `numpy` square root are
external collaborators of this core (they live in the `lal` / `numpy`
libraries, not in this repository), so they enter the model as explicit
kernel/function parameters; theorems that depend on their analytic
properties carry those properties as hypotheses.
-/

namespace LalSimUtils

/-- Complex numbers with rational real and imaginary parts, modelling the
COMPLEX16 samples manipulated by `lalsimutils.py`. -/
@[ext]
structure Cq where
  re : ℚ
  im : ℚ
deriving DecidableEq, Repr

namespace Cq

instance : Zero Cq := ⟨⟨0, 0⟩⟩
instance : One Cq := ⟨⟨1, 0⟩⟩
instance : Add Cq := ⟨fun a b => ⟨a.re + b.re, a.im + b.im⟩⟩
instance : Neg Cq := ⟨fun a => ⟨-a.re, -a.im⟩⟩
instance : Mul Cq := ⟨fun a b => ⟨a.re * b.re - a.im * b.im, a.re * b.im + a.im * b.re⟩⟩

@[simp] theorem zero_re : (0 : Cq).re = 0 := rfl
@[simp] theorem zero_im : (0 : Cq).im = 0 := rfl
@[simp] theorem one_re : (1 : Cq).re = 1 := rfl
@[simp] theorem one_im : (1 : Cq).im = 0 := rfl
@[simp] theorem add_re (a b : Cq) : (a + b).re = a.re + b.re := rfl
@[simp] theorem add_im (a b : Cq) : (a + b).im = a.im + b.im := rfl
@[simp] theorem neg_re (a : Cq) : (-a).re = -a.re := rfl
@[simp] theorem neg_im (a : Cq) : (-a).im = -a.im := rfl
@[simp] theorem mul_re (a b : Cq) : (a * b).re = a.re * b.re - a.im * b.im := rfl
@[simp] theorem mul_im (a b : Cq) : (a * b).im = a.re * b.im + a.im * b.re := rfl

instance : CommRing Cq where
  add_assoc a b c := by ext <;> simp <;> ring
  zero_add a := by ext <;> simp
  add_zero a := by ext <;> simp
  add_comm a b := by ext <;> simp <;> ring
  neg_add_cancel a := by ext <;> simp
  mul_assoc a b c := by ext <;> simp <;> ring
  one_mul a := by ext <;> simp
  mul_one a := by ext <;> simp
  left_distrib a b c := by ext <;> simp <;> ring
  right_distrib a b c := by ext <;> simp <;> ring
  mul_comm a b := by ext <;> simp <;> ring
  zero_mul a := by ext <;> simp
  mul_zero a := by ext <;> simp
  nsmul := nsmulRec
  zsmul := zsmulRec

/-- Embeds a rational (Python real float) as a complex sample. -/
def ofRat (q : ℚ) : Cq := ⟨q, 0⟩

@[simp] theorem ofRat_re (q : ℚ) : (ofRat q).re = q := rfl
@[simp] theorem ofRat_im (q : ℚ) : (ofRat q).im = 0 := rfl

@[simp] theorem ofRat_zero : ofRat 0 = 0 := rfl
@[simp] theorem ofRat_one : ofRat 1 = 1 := rfl

theorem ofRat_add (p q : ℚ) : ofRat (p + q) = ofRat p + ofRat q := by
  ext <;> simp

theorem ofRat_mul (p q : ℚ) : ofRat (p * q) = ofRat p * ofRat q := by
  ext <;> simp

/-- Complex conjugation (`numpy.conj`). -/
def conj (a : Cq) : Cq := ⟨a.re, -a.im⟩

@[simp] theorem conj_re (a : Cq) : (conj a).re = a.re := rfl
@[simp] theorem conj_im (a : Cq) : (conj a).im = -a.im := rfl

/-- Squared magnitude; `numpy.abs` of a sample is its square root. -/
def normSq (a : Cq) : ℚ := a.re * a.re + a.im * a.im

theorem normSq_nonneg (a : Cq) : 0 ≤ normSq a := by
  have h1 := mul_self_nonneg a.re
  have h2 := mul_self_nonneg a.im
  unfold normSq; linarith

theorem conj_mul_self (a : Cq) : conj a * a = ofRat (normSq a) := by
  ext
  · simp only [mul_re, conj_re, conj_im, ofRat_re, normSq]; ring
  · simp only [mul_im, conj_re, conj_im, ofRat_im]; ring

theorem normSq_mul (a b : Cq) : normSq (a * b) = normSq a * normSq b := by
  simp only [normSq, mul_re, mul_im]; ring

@[simp] theorem normSq_zero : normSq 0 = 0 := by simp [normSq]

theorem normSq_ofRat (q : ℚ) : normSq (ofRat q) = q * q := by
  simp [normSq]

end Cq

/-- Error taxonomy of the engine.  The Python raises `AssertionError` or
`ZeroDivisionError`; following the spec's taxonomy, constructor assertion
failures are configuration errors and `ip`/`norm` assertion failures are
precondition errors. -/
inductive Err where
  | configuration
  | precondition
  | zeroDivision
deriving DecidableEq, Repr

instance {ε α : Type} [DecidableEq ε] [DecidableEq α] :
    DecidableEq (Except ε α) := fun a b =>
  match a, b with
  | .error e, .error f =>
      if h : e = f then isTrue (congrArg Except.error h)
      else isFalse (fun hc => h (Except.error.inj hc))
  | .error _, .ok _ => isFalse (fun hc => Except.noConfusion hc)
  | .ok _, .error _ => isFalse (fun hc => Except.noConfusion hc)
  | .ok x, .ok y =>
      if h : x = y then isTrue (congrArg Except.ok h)
      else isFalse (fun hc => h (Except.ok.inj hc))

/-- `TOL_DF = 1.e-6` (lalsimutils.py line 44). -/
def TOL_DF : ℚ := 1 / 1000000

/-- Python `int()` applied to a real value: truncation toward zero. -/
def pyInt (x : ℚ) : ℤ := if 0 ≤ x then ⌊x⌋ else ⌈x⌉

/-- Python 2 `round()`: round half away from zero. -/
def pyRound (x : ℚ) : ℤ := if 0 ≤ x then ⌊x + 1/2⌋ else ⌈x - 1/2⌉

/-- A `COMPLEX16FrequencySeries` as consumed by the inner products: the bin
spacing `deltaF` together with the complex samples (`data.length` in the
Python). -/
structure FreqSeries where
  deltaF : ℚ
  data : List Cq
deriving DecidableEq, Repr

/-- The three kinds of PSD argument accepted by `InnerProduct.__init__`: a
closed-form callable (the `analyticPSD_Q is True` path), a
`lal.REAL8FrequencySeries`, or a raw array (the two `analyticPSD_Q is False`
paths). -/
inductive PSDSource where
  | analytic (S : ℚ → ℚ)
  | series (f0 : ℚ) (deltaF : ℚ) (data : List ℚ)
  | array (data : List ℚ)

/-- The integer list `[lo, lo+1, ..., hi-1]`, Python `range(lo, hi)`. -/
def intRange (lo hi : ℤ) : List ℤ :=
  (List.range (hi - lo).toNat).map (fun (n : ℕ) => lo + (n : ℤ))

/-- numpy element read at a possibly negative (wrapping) index. -/
def npGet (l : List ℚ) (i : ℤ) : ℚ :=
  if 0 ≤ i then l.getD i.toNat 0 else l.getD ((l.length : ℤ) + i).toNat 0

/-- numpy element write at a possibly negative (wrapping) index.
`List.set` ignores out-of-range indices; every configuration reached by the
verified paths stays in range. -/
def npSet {α : Type} (l : List α) (i : ℤ) (v : α) : List α :=
  if 0 ≤ i then l.set i.toNat v else l.set ((l.length : ℤ) + i).toNat v

/-- numpy slice assignment `dst[start:start+src.length] = src` (in-range). -/
def npSliceAssign {α : Type} (dst : List α) (start : ℕ) (src : List α) : List α :=
  dst.take start ++ src ++ dst.drop (start + src.length)

/-- The `analyticPSD_Q is True` weight loop (lines 281-283):
`weights[i] = 1./psd(i*deltaF)` for `i in range(minIdx, maxIdx)`.  A zero
PSD value makes `1./0.` raise `ZeroDivisionError`. -/
def fillAnalytic (S : ℚ → ℚ) (deltaF : ℚ) (lo hi : ℤ) (w : List ℚ) :
    Except Err (List ℚ) :=
  (intRange lo hi).foldlM (fun (acc : List ℚ) (i : ℤ) =>
    if S ((i : ℚ) * deltaF) = 0 then .error .zeroDivision
    else .ok (npSet acc i (1 / S ((i : ℚ) * deltaF)))) w

/-- The sampled-PSD weight loop (lines 289-292 and 296-299): bins whose PSD
value is exactly zero are skipped (weight left at zero), others get the
reciprocal. -/
def fillSampled (psd : List ℚ) (lo hi : ℤ) (w : List ℚ) : List ℚ :=
  (intRange lo hi).foldl (fun acc i =>
    if npGet psd i ≠ 0 then npSet acc i (1 / npGet psd i) else acc) w

/-- `Σ_k f (s+k) x_k`: index-paired sum used to model the LAL DFT plans. -/
def idxSum (f : ℕ → Cq → Cq) : ℕ → List Cq → Cq
  | _, [] => 0
  | s, z :: rest => f s z + idxSum f (s + 1) rest

/-- Model of `lal.COMPLEX16FreqTimeFFT`: sample `j` of the output is
`deltaF · Σ_k x_k · K j k`, where the kernel `K` abstracts the plan's
`exp(2πi·j·k/n)` factors (an external LAL primitive). -/
def freqTimeFFT (K : ℕ → ℕ → Cq) (deltaF : ℚ) (n : ℕ) (x : List Cq) : List Cq :=
  (List.range n).map (fun j => Cq.ofRat deltaF * idxSum (fun k z => z * K j k) 0 x)

/-- Model of `lal.REAL8FreqTimeFFT` (half-complex in, real out), kernel
abstracted as for `freqTimeFFT`. -/
def real8FreqTimeFFT (K : ℕ → ℕ → Cq) (deltaF : ℚ) (n : ℕ) (x : List Cq) : List ℚ :=
  (List.range n).map (fun j => deltaF * (idxSum (fun k z => z * K j k) 0 x).re)

/-- Model of `lal.REAL8TimeFreqFFT` (real in, half-complex out). -/
def real8TimeFreqFFT (K : ℕ → ℕ → Cq) (deltaT : ℚ) (n : ℕ) (x : List ℚ) : List Cq :=
  (List.range n).map
    (fun j => Cq.ofRat deltaT * idxSum (fun k z => z * K j k) 0 (x.map Cq.ofRat))

/-- `arr[0] = arr[-1] = 0.` on a complex array. -/
def zeroEnds (l : List Cq) : List Cq := (l.set 0 0).set (l.length - 1) 0

/-- The inverse-spectrum-truncation body of `InnerProduct.__init__` (lines
303-325).  `sqrtFn` models elementwise `np.sqrt`; `revK`/`fwdK` model the
reverse/forward REAL8 FFT plans.  `np.abs(WFD*WFD)` is `normSq` of each
sample, since `|z²| = |z|²`. -/
def invSpecTrunc (sqrtFn : ℚ → ℚ) (revK fwdK : ℕ → ℕ → Cq)
    (deltaF deltaT : ℚ) (len1side len2side : ℕ) (nSpec : ℤ)
    (weights : List ℚ) : List ℚ :=
  let wfd0 : List Cq := zeroEnds (weights.map (fun q => Cq.ofRat (sqrtFn q)))
  let wtd : List ℚ := real8FreqTimeFFT revK deltaF len2side wfd0
  -- for i in xrange(N_spec/2, len2side - N_spec/2): WTD[i] = 0.
  -- (Python integer division floors)
  let lo : ℤ := Int.fdiv nSpec 2
  let wtd1 : List ℚ := (intRange lo ((len2side : ℤ) - lo)).foldl
    (fun acc i => npSet acc i 0) wtd
  let wfd1 : List Cq := zeroEnds (real8TimeFreqFFT fwdK deltaT len1side wtd1)
  wfd1.map Cq.normSq

/-- The state an `InnerProduct` instance carries after `__init__`. -/
structure IPState where
  fLow : ℚ
  fMax : ℚ
  fNyq : ℚ
  deltaF : ℚ
  deltaT : ℚ
  len1side : ℕ
  len2side : ℕ
  minIdx : ℤ
  maxIdx : ℤ
  weights : List ℚ
  weights2side : List ℚ
deriving DecidableEq, Repr

/-- Stage one of `InnerProduct.__init__`: the `assert self.fMax <= self.fNyq`
check followed by the one-sided weight fill from the PSD source. -/
def mkWeightsA (fMax fNyq deltaF : ℚ) (minIdx maxIdx : ℤ) (len1side : ℕ)
    (psd : PSDSource) : Except Err (List ℚ) :=
  if ¬ (fMax ≤ fNyq) then .error .configuration
  else
    match psd with
    | .analytic S => fillAnalytic S deltaF minIdx maxIdx (List.replicate len1side 0)
    | .series f0 psdDF data =>
        if ¬ (f0 = 0) then .error .configuration         -- assert psd.f0 == 0.
        else if ¬ (|psdDF - deltaF| ≤ TOL_DF) then .error .configuration
        else if ¬ (fMax ≤ ((data.length : ℚ) - 1) * psdDF) then .error .configuration
        else .ok (fillSampled data minIdx maxIdx (List.replicate len1side 0))
    | .array data =>
        if ¬ (fMax ≤ ((data.length : ℚ) - 1) * deltaF) then .error .configuration
        else .ok (fillSampled data minIdx maxIdx (List.replicate len1side 0))

/-- Stage two: the optional inverse-spectrum truncation (lines 302-325). -/
def mkWeightsB (sqrtFn : ℚ → ℚ) (revK fwdK : ℕ → ℕ → Cq)
    (deltaF deltaT : ℚ) (len1side len2side : ℕ) (invSpecTruncQ : Bool)
    (tSpec : ℚ) (weightsA : List ℚ) : Except Err (List ℚ) :=
  if invSpecTruncQ then
    -- N_spec = int(T_spec / self.deltaT); assert N_spec < self.len2side / 2
    if ¬ (pyInt (tSpec / deltaT) < (len2side : ℤ) / 2) then .error .configuration
    else .ok (invSpecTrunc sqrtFn revK fwdK deltaF deltaT len1side len2side
      (pyInt (tSpec / deltaT)) weightsA)
  else .ok weightsA

/-- Stage three: the two-sided mirroring (lines 327-330):
`weights2side[:len(weights)] = weights[::-1]` then
`weights2side[len(weights)-1:] = weights[0:-1]`. -/
def twoSide (len2side : ℕ) (w : List ℚ) : List ℚ :=
  npSliceAssign (npSliceAssign (List.replicate len2side (0 : ℚ)) 0 w.reverse)
    (w.length - 1) w.dropLast

/-- `InnerProduct.__init__` (lines 262-330).  `sqrtFn`, `revK`, `fwdK`
model the external numpy/LAL primitives used only on the truncation path.
Note on line 302, `if inv_spec_trunc_Q is True and T_spec is not 0.`:
CPython evaluates `T_spec is not 0.` by object identity, and any runtime
float — the default argument included — is a distinct object from the `0.`
constant of `__init__`'s code object, so that conjunct is True even when
`T_spec == 0.0`; the branch is governed by the flag alone. -/
def mkInnerProduct (sqrtFn : ℚ → ℚ) (revK fwdK : ℕ → ℕ → Cq)
    (fLow : ℚ) (fMaxOpt : Option ℚ) (fNyq deltaF : ℚ) (psd : PSDSource)
    (invSpecTruncQ : Bool) (tSpec : ℚ) : Except Err IPState :=
  -- self.deltaT = 1./2./fNyq; len1side = int(fNyq/deltaF)+1; len2side = 2*(len1side-1)
  Except.bind
    (mkWeightsA (fMaxOpt.getD fNyq) fNyq deltaF (pyRound (fLow / deltaF))
      (pyRound ((fMaxOpt.getD fNyq) / deltaF)) ((pyInt (fNyq / deltaF) + 1).toNat) psd)
    (fun weightsA =>
  Except.bind
    (mkWeightsB sqrtFn revK fwdK deltaF (1 / 2 / fNyq)
      ((pyInt (fNyq / deltaF) + 1).toNat)
      (2 * (((pyInt (fNyq / deltaF) + 1).toNat) - 1)) invSpecTruncQ tSpec weightsA)
    (fun weightsB =>
  .ok { fLow := fLow, fMax := fMaxOpt.getD fNyq, fNyq := fNyq, deltaF := deltaF,
        deltaT := 1 / 2 / fNyq,
        len1side := (pyInt (fNyq / deltaF) + 1).toNat,
        len2side := 2 * (((pyInt (fNyq / deltaF) + 1).toNat) - 1),
        minIdx := pyRound (fLow / deltaF),
        maxIdx := pyRound ((fMaxOpt.getD fNyq) / deltaF),
        weights := weightsB,
        weights2side := twoSide (2 * (((pyInt (fNyq / deltaF) + 1).toNat) - 1)) weightsB }))

/-- `np.conj(h1)*h2*w` elementwise. -/
def wProd (a b : List Cq) (w : List ℚ) : List Cq :=
  List.zipWith (fun z c => z * Cq.ofRat c) (List.zipWith (fun x y => Cq.conj x * y) a b) w

/-- `np.sum(np.conj(h1)*h2*w)`. -/
def wSum (a b : List Cq) (w : List ℚ) : Cq := (wProd a b w).sum

/-- `RealIP.ip` (lines 357-367): preconditions, then
`4.*deltaF*np.real(np.sum(conj(h1)*h2*weights))`. -/
def realIPip (st : IPState) (h1 h2 : FreqSeries) : Except Err ℚ :=
  if h1.data.length ≠ st.len1side then .error .precondition
  else if h2.data.length ≠ st.len1side then .error .precondition
  else if ¬ (|h1.deltaF - h2.deltaF| ≤ TOL_DF ∧ |h1.deltaF - st.deltaF| ≤ TOL_DF) then
    .error .precondition
  else .ok (4 * st.deltaF * (wSum h1.data h2.data st.weights).re)

/-- `HermitianComplexIP.ip` (lines 394-404): as `RealIP.ip` but the complex
value `4.*deltaF*Σ` is returned with no real part taken. -/
def hermIPip (st : IPState) (h1 h2 : FreqSeries) : Except Err Cq :=
  if h1.data.length ≠ st.len1side then .error .precondition
  else if h2.data.length ≠ st.len1side then .error .precondition
  else if ¬ (|h1.deltaF - h2.deltaF| ≤ TOL_DF ∧ |h1.deltaF - st.deltaF| ≤ TOL_DF) then
    .error .precondition
  else .ok (Cq.ofRat (4 * st.deltaF) * wSum h1.data h2.data st.weights)

/-- `ComplexIP.ip` (lines 432-442): `h1.len==h2.len==len2side`, then
`2.*deltaF*Σ conj(h1)*h2*weights2side`, complex, no real part taken. -/
def complexIPip (st : IPState) (h1 h2 : FreqSeries) : Except Err Cq :=
  if h1.data.length ≠ h2.data.length then .error .precondition
  else if h2.data.length ≠ st.len2side then .error .precondition
  else if ¬ (|h1.deltaF - h2.deltaF| ≤ TOL_DF ∧ |h1.deltaF - st.deltaF| ≤ TOL_DF) then
    .error .precondition
  else .ok (Cq.ofRat (2 * st.deltaF) * wSum h1.data h2.data st.weights2side)

/-- Shared body of the one-sided `norm` methods (`RealIP.norm`,
`HermitianComplexIP.norm`, `Overlap.norm`): precondition checks, then the
complex accumulator `val = np.sum(conj(h)*h*weights)`.  The method returns
`np.sqrt(4.*deltaF*np.abs(val))`. -/
def oneSidedNormArg (st : IPState) (h : FreqSeries) : Except Err Cq :=
  if h.data.length ≠ st.len1side then .error .precondition
  else if ¬ (|h.deltaF - st.deltaF| ≤ TOL_DF) then .error .precondition
  else .ok (wSum h.data h.data st.weights)

/-- Shared body of the two-sided `norm` methods (`ComplexIP.norm`,
`ComplexOverlap.norm`): the accumulator `np.sum(conj(h)*h*weights2side)`;
the method returns `np.sqrt(2.*deltaF*np.abs(val))`. -/
def twoSidedNormArg (st : IPState) (h : FreqSeries) : Except Err Cq :=
  if h.data.length ≠ st.len2side then .error .precondition
  else if ¬ (|h.deltaF - st.deltaF| ≤ TOL_DF) then .error .precondition
  else .ok (wSum h.data h.data st.weights2side)

/-- `Overlap.__init__` resets `self.deltaT = 1./self.deltaF/self.len2side`
(line 487; `ComplexOverlap.__init__` line 584 likewise). -/
def ovDeltaT (st : IPState) : ℚ := 1 / st.deltaF / (st.len2side : ℚ)

/-- `Overlap.wrap_times` and `ComplexOverlap.wrap_times` (identical bodies):
`tShift = np.arange(len2side)*deltaT`, then `len2side*deltaT` is subtracted
from the entries at indices `len1side..len2side-1`. -/
def wrapTimes (st : IPState) : List ℚ :=
  (List.range st.len2side).map (fun i =>
    if st.len1side ≤ i then (i : ℚ) * ovDeltaT st - (st.len2side : ℚ) * ovDeltaT st
    else (i : ℚ) * ovDeltaT st)

/-- The SNR integrand assembled by `Overlap.ip` (lines 497-503): the
`len1side` leading (negative-frequency) bins zeroed, and
`temp = 4.*conj(h1)*h2*weights` without its last (Nyquist) entry written at
offset `len1side-1`. -/
def overlapIntgd (st : IPState) (h1 h2 : FreqSeries) : List Cq :=
  let temp := (wProd h1.data h2.data st.weights).map (fun z => Cq.ofRat 4 * z)
  npSliceAssign
    (npSliceAssign (List.replicate st.len2side (0 : Cq)) 0
      (List.replicate st.len1side (0 : Cq)))
    (st.len1side - 1) temp.dropLast

/-- `Overlap.ip` (lines 490-509) up to the complex overlap time series
`self.ovlp`: preconditions, integrand, reverse COMPLEX16 FFT (kernel `K`
models the plan built at construction).  The scalar return value is the
maximal magnitude over this series. -/
def overlapSeries (K : ℕ → ℕ → Cq) (st : IPState) (h1 h2 : FreqSeries) :
    Except Err (List Cq) :=
  if h1.data.length ≠ h2.data.length then .error .precondition
  else if h2.data.length ≠ st.len1side then .error .precondition
  else if ¬ (|h1.deltaF - h2.deltaF| ≤ TOL_DF ∧ |h1.deltaF - st.deltaF| ≤ TOL_DF) then
    .error .precondition
  else .ok (freqTimeFFT K st.deltaF st.len2side (overlapIntgd st h1 h2))

/-- The integrand of `ComplexOverlap.ip` (line 598):
`self.intgd.data.data = 2*np.conj(h1)*h2*weights2side` (full overwrite). -/
def covlpIntgd (st : IPState) (h1 h2 : FreqSeries) : List Cq :=
  (wProd h1.data h2.data st.weights2side).map (fun z => Cq.ofRat 2 * z)

/-- `ComplexOverlap.ip` (lines 591-606) up to the complex overlap series. -/
def covlpSeries (K : ℕ → ℕ → Cq) (st : IPState) (h1 h2 : FreqSeries) :
    Except Err (List Cq) :=
  if h1.data.length ≠ h2.data.length then .error .precondition
  else if h2.data.length ≠ st.len2side then .error .precondition
  else if ¬ (|h1.deltaF - h2.deltaF| ≤ TOL_DF ∧ |h1.deltaF - st.deltaF| ≤ TOL_DF) then
    .error .precondition
  else .ok (freqTimeFFT K st.deltaF st.len2side (covlpIntgd st h1 h2))

/-- `np.abs(series).max()` squared: the maximum of `normSq` over the series
(`rho` is its square root, taken by external numpy routines). -/
def maxNormSq (l : List Cq) : ℚ := (l.map Cq.normSq).foldl max 0

/-- `np.abs(series).argmax()`: the first index attaining the maximal
magnitude. -/
def argMaxNormSq (l : List Cq) : ℕ :=
  (l.findIdx? (fun z => Cq.normSq z == maxNormSq l)).getD 0

/-- A heap of complex-sample buffers: the lal `COMPLEX16TimeSeries` /
`COMPLEX16FrequencySeries` objects an `Overlap` instance owns or creates.
`next` is the next fresh reference. -/
structure Heap where
  mem : ℕ → List Cq
  next : ℕ

/-- In-place overwrite of an existing buffer (`obj.data.data[:] = ...`). -/
def Heap.write (h : Heap) (r : ℕ) (v : List Cq) : Heap :=
  ⟨Function.update h.mem r v, h.next⟩

/-- `lal.CreateCOMPLEX16TimeSeries`: allocate a fresh buffer. -/
def Heap.alloc (h : Heap) (v : List Cq) : ℕ × Heap :=
  (h.next, ⟨Function.update h.mem h.next v, h.next + 1⟩)

/-- The per-instance scratch references created by `Overlap.__init__` /
`ComplexOverlap.__init__`: `self.intgd` and `self.ovlp`. -/
structure OvState where
  intgdRef : ℕ
  ovlpRef : ℕ

/-- `Overlap.ip` with `full_output=True` (lines 490-521), buffers modelled
through the heap: the integrand is written into `self.intgd`, the reverse
FFT result into `self.ovlp`, and the overlap series is copied into a fresh
`CreateCOMPLEX16TimeSeries` buffer whose reference is returned.  The result
is `(heap, rhoSq, rhoIdx, rhoRef)`; the code's `rho` is the square root of
`rhoSq` and `rhoPhase` the angle of the sample at `rhoIdx` (both produced
by external numpy routines from the returned data). -/
def overlapIpFull (K : ℕ → ℕ → Cq) (st : IPState) (os : OvState) (hp : Heap)
    (h1 h2 : FreqSeries) : Except Err (Heap × ℚ × ℕ × ℕ) :=
  if h1.data.length ≠ h2.data.length then .error .precondition
  else if h2.data.length ≠ st.len1side then .error .precondition
  else if ¬ (|h1.deltaF - h2.deltaF| ≤ TOL_DF ∧ |h1.deltaF - st.deltaF| ≤ TOL_DF) then
    .error .precondition
  else
    let hp1 := hp.write os.intgdRef (overlapIntgd st h1 h2)
    let ov := freqTimeFFT K st.deltaF st.len2side (hp1.mem os.intgdRef)
    let hp2 := hp1.write os.ovlpRef ov
    let out := hp2.alloc (hp2.mem os.ovlpRef)
    .ok (out.2, maxNormSq (hp2.mem os.ovlpRef),
         argMaxNormSq (hp2.mem os.ovlpRef), out.1)

/-- `ComplexOverlap.ip` with `full_output=True` (lines 591-619), heap
modelled as in `overlapIpFull`. -/
def covlpIpFull (K : ℕ → ℕ → Cq) (st : IPState) (os : OvState) (hp : Heap)
    (h1 h2 : FreqSeries) : Except Err (Heap × ℚ × ℕ × ℕ) :=
  if h1.data.length ≠ h2.data.length then .error .precondition
  else if h2.data.length ≠ st.len2side then .error .precondition
  else if ¬ (|h1.deltaF - h2.deltaF| ≤ TOL_DF ∧ |h1.deltaF - st.deltaF| ≤ TOL_DF) then
    .error .precondition
  else
    let hp1 := hp.write os.intgdRef (covlpIntgd st h1 h2)
    let ov := freqTimeFFT K st.deltaF st.len2side (hp1.mem os.intgdRef)
    let hp2 := hp1.write os.ovlpRef ov
    let out := hp2.alloc (hp2.mem os.ovlpRef)
    .ok (out.2, maxNormSq (hp2.mem os.ovlpRef),
         argMaxNormSq (hp2.mem os.ovlpRef), out.1)

/-- Total accessor: the heap of a successful full-output call (dummy heap
on error); used to state concrete instances. -/
def ovOutHeap (e : Except Err (Heap × ℚ × ℕ × ℕ)) : Heap :=
  match e with
  | .ok o => o.1
  | .error _ => ⟨fun _ => [], 0⟩

/-- Total accessor: the returned fresh buffer reference of a successful
full-output call (0 on error). -/
def ovOutRef (e : Except Err (Heap × ℚ × ℕ × ℕ)) : ℕ :=
  match e with
  | .ok o => o.2.2.2
  | .error _ => 0

/-! ### Supporting lemmas -/

theorem npSet_length {α : Type} (l : List α) (i : ℤ) (v : α) :
    (npSet l i v).length = l.length := by
  unfold npSet; split <;> simp

theorem npSet_nonneg_eq (l : List ℚ) (i : ℤ) (hi : 0 ≤ i) (v : ℚ) :
    npSet l i v = l.set i.toNat v := by
  unfold npSet; simp [hi]

theorem foldl_fillStep_length (psd : List ℚ) (L : List ℤ) (w : List ℚ) :
    (L.foldl (fun acc i =>
      if npGet psd i ≠ 0 then npSet acc i (1 / npGet psd i) else acc) w).length
      = w.length := by
  induction L generalizing w with
  | nil => rfl
  | cons i rest ih =>
      simp only [List.foldl_cons]
      split
      · rw [ih, npSet_length]
      · rw [ih]

theorem fillSampled_length (psd : List ℚ) (lo hi : ℤ) (w : List ℚ) :
    (fillSampled psd lo hi w).length = w.length :=
  foldl_fillStep_length psd (intRange lo hi) w

theorem foldlM_fillStep_length (S : ℚ → ℚ) (deltaF : ℚ) (L : List ℤ)
    (w w' : List ℚ)
    (h : L.foldlM (fun (acc : List ℚ) (i : ℤ) =>
      if S ((i : ℚ) * deltaF) = 0 then Except.error Err.zeroDivision
      else Except.ok (npSet acc i (1 / S ((i : ℚ) * deltaF)))) w = .ok w') :
    w'.length = w.length := by
  induction L generalizing w with
  | nil =>
      simp only [List.foldlM_nil] at h
      cases h; rfl
  | cons i rest ih =>
      simp only [List.foldlM_cons] at h
      split at h
      · simp only [Bind.bind, Except.bind] at h
        exact Except.noConfusion h
      · simp only [Bind.bind, Except.bind] at h
        have := ih _ h
        rw [this, npSet_length]

theorem fillAnalytic_length (S : ℚ → ℚ) (deltaF : ℚ) (lo hi : ℤ)
    (w w' : List ℚ) (h : fillAnalytic S deltaF lo hi w = .ok w') :
    w'.length = w.length :=
  foldlM_fillStep_length S deltaF (intRange lo hi) w w' h

theorem real8TimeFreqFFT_length (K : ℕ → ℕ → Cq) (dT : ℚ) (n : ℕ) (x : List ℚ) :
    (real8TimeFreqFFT K dT n x).length = n := by
  simp [real8TimeFreqFFT]

theorem freqTimeFFT_length (K : ℕ → ℕ → Cq) (dF : ℚ) (n : ℕ) (x : List Cq) :
    (freqTimeFFT K dF n x).length = n := by
  simp [freqTimeFFT]

theorem zeroEnds_length (l : List Cq) : (zeroEnds l).length = l.length := by
  simp [zeroEnds]

theorem invSpecTrunc_length (sq : ℚ → ℚ) (rK fK : ℕ → ℕ → Cq)
    (dF dT : ℚ) (n1 n2 : ℕ) (nSpec : ℤ) (w : List ℚ) :
    (invSpecTrunc sq rK fK dF dT n1 n2 nSpec w).length = n1 := by
  unfold invSpecTrunc
  simp [zeroEnds_length, real8TimeFreqFFT_length]

theorem mkWeightsA_length (fMax fNyq dF : ℚ) (lo hi : ℤ) (n1 : ℕ)
    (psd : PSDSource) (w : List ℚ)
    (h : mkWeightsA fMax fNyq dF lo hi n1 psd = .ok w) : w.length = n1 := by
  cases psd with
  | analytic S =>
      simp only [mkWeightsA] at h
      split at h
      · cases h
      · have := fillAnalytic_length _ _ _ _ _ _ h
        simpa using this
  | series f0 psdDF data =>
      simp only [mkWeightsA] at h
      split at h
      · cases h
      · split at h
        · cases h
        · split at h
          · cases h
          · split at h
            · cases h
            · cases h; simp [fillSampled_length]
  | array data =>
      simp only [mkWeightsA] at h
      split at h
      · cases h
      · split at h
        · cases h
        · cases h; simp [fillSampled_length]

theorem mkWeightsB_length (sq : ℚ → ℚ) (rK fK : ℕ → ℕ → Cq) (dF dT : ℚ)
    (n1 n2 : ℕ) (q : Bool) (T : ℚ) (wA w : List ℚ)
    (h : mkWeightsB sq rK fK dF dT n1 n2 q T wA = .ok w)
    (hA : wA.length = n1) : w.length = n1 := by
  unfold mkWeightsB at h
  split at h
  · split at h
    · cases h
    · cases h; exact invSpecTrunc_length ..
  · cases h; exact hA

/-- Inverting a successful `InnerProduct.__init__`: the field values in
terms of the staged computations. -/
theorem mk_ok_elim {sq : ℚ → ℚ} {rK fK : ℕ → ℕ → Cq} {fLow : ℚ}
    {fMO : Option ℚ} {fNyq dF : ℚ} {psd : PSDSource} {q : Bool} {T : ℚ}
    {st : IPState}
    (h : mkInnerProduct sq rK fK fLow fMO fNyq dF psd q T = .ok st) :
    ∃ wA,
      mkWeightsA (fMO.getD fNyq) fNyq dF (pyRound (fLow / dF))
        (pyRound ((fMO.getD fNyq) / dF)) ((pyInt (fNyq / dF) + 1).toNat) psd
        = .ok wA ∧
      mkWeightsB sq rK fK dF (1 / 2 / fNyq) ((pyInt (fNyq / dF) + 1).toNat)
        (2 * (((pyInt (fNyq / dF) + 1).toNat) - 1)) q T wA = .ok st.weights ∧
      st.len1side = (pyInt (fNyq / dF) + 1).toNat ∧
      st.len2side = 2 * (st.len1side - 1) ∧
      st.deltaF = dF ∧ st.fNyq = fNyq ∧ st.fMax = fMO.getD fNyq ∧
      st.fLow = fLow ∧ st.deltaT = 1 / 2 / fNyq ∧
      st.minIdx = pyRound (fLow / dF) ∧
      st.maxIdx = pyRound ((fMO.getD fNyq) / dF) ∧
      st.weights2side = twoSide st.len2side st.weights := by
  unfold mkInnerProduct at h
  cases hA : mkWeightsA (fMO.getD fNyq) fNyq dF (pyRound (fLow / dF))
      (pyRound ((fMO.getD fNyq) / dF)) ((pyInt (fNyq / dF) + 1).toNat) psd with
  | error e =>
      rw [hA] at h; simp only [Except.bind] at h
      exact Except.noConfusion h
  | ok wA =>
      rw [hA] at h
      simp only [Except.bind] at h
      cases hB : mkWeightsB sq rK fK dF (1 / 2 / fNyq)
          ((pyInt (fNyq / dF) + 1).toNat)
          (2 * (((pyInt (fNyq / dF) + 1).toNat) - 1)) q T wA with
      | error e =>
          rw [hB] at h; simp only [Except.bind] at h
          exact Except.noConfusion h
      | ok wB =>
          rw [hB] at h
          simp only [Except.bind, Except.ok.injEq] at h
          refine ⟨wA, rfl, ?_⟩
          subst h
          simp_all

theorem getD_set_ne (l : List ℚ) (i j : ℕ) (v : ℚ) (h : i ≠ j) :
    (l.set i v).getD j 0 = l.getD j 0 := by
  simp [List.getD_eq_getElem?_getD, List.getElem?_set_ne h]

theorem getD_nonneg (l : List ℚ) (hl : ∀ x ∈ l, 0 ≤ x) (n : ℕ) :
    0 ≤ l.getD n 0 := by
  rcases lt_or_le n l.length with h | h
  · rw [List.getD_eq_getElem l 0 h]; exact hl _ (List.getElem_mem h)
  · rw [List.getD_eq_default l 0 h]

theorem mem_intRange {i lo hi : ℤ} (h : i ∈ intRange lo hi) :
    lo ≤ i ∧ i < hi := by
  unfold intRange at h
  rcases List.mem_map.mp h with ⟨n, hn, rfl⟩
  rw [List.mem_range] at hn
  omega

/-- Positions that no loop iteration writes keep their initial value. -/
theorem foldl_fillStep_getD_untouched (psd : List ℚ) (L : List ℤ)
    (w : List ℚ) (j : ℕ) (hpos : ∀ i ∈ L, 0 ≤ i)
    (hj : ∀ i ∈ L, i.toNat = j → npGet psd i = 0) :
    (L.foldl (fun acc i =>
      if npGet psd i ≠ 0 then npSet acc i (1 / npGet psd i) else acc) w).getD j 0
      = w.getD j 0 := by
  induction L generalizing w with
  | nil => rfl
  | cons i rest ih =>
      simp only [List.foldl_cons]
      have hi : 0 ≤ i := hpos i (List.mem_cons_self i rest)
      have step : ∀ w' : List ℚ,
          ((if npGet psd i ≠ 0 then npSet w' i (1 / npGet psd i) else w').getD j 0)
            = w'.getD j 0 := by
        intro w'
        split
        · rename_i hnz
          rw [npSet_nonneg_eq _ _ hi]
          have hne : i.toNat ≠ j := fun he => hnz (hj i (List.mem_cons_self i rest) he)
          exact getD_set_ne _ _ _ _ hne
        · rfl
      have ihs := ih (if npGet psd i ≠ 0 then npSet w i (1 / npGet psd i) else w)
        (fun x hx => hpos x (List.mem_cons_of_mem i hx))
        (fun x hx he => hj x (List.mem_cons_of_mem i hx) he)
      rw [ihs, step]

/-- A zero PSD bin inside (or outside) the band is never written: its
weight keeps the initial value. -/
theorem fillSampled_getD_zero_bin (psd : List ℚ) (lo hi : ℤ) (w : List ℚ)
    (j : ℕ) (hlo : 0 ≤ lo) (hz : npGet psd (j : ℤ) = 0) :
    (fillSampled psd lo hi w).getD j 0 = w.getD j 0 := by
  apply foldl_fillStep_getD_untouched
  · intro i hi; exact le_trans hlo (mem_intRange hi).1
  · intro i hi he
    have h0 : 0 ≤ i := le_trans hlo (mem_intRange hi).1
    have : i = (j : ℤ) := by omega
    rwa [this]

/-- Bins at or beyond the upper loop bound are never written. -/
theorem fillSampled_getD_ge_hi (psd : List ℚ) (lo hi : ℤ) (w : List ℚ)
    (j : ℕ) (hlo : 0 ≤ lo) (hhi : hi ≤ (j : ℤ)) :
    (fillSampled psd lo hi w).getD j 0 = w.getD j 0 := by
  apply foldl_fillStep_getD_untouched
  · intro i hi'; exact le_trans hlo (mem_intRange hi').1
  · intro i hi' he
    have := mem_intRange hi'
    omega

/-- A non-negative sampled PSD yields non-negative weights. -/
theorem fillSampled_nonneg (psd : List ℚ) (lo hi : ℤ) (w : List ℚ)
    (hw : ∀ x ∈ w, 0 ≤ x) (hpsd : ∀ x ∈ psd, 0 ≤ x) :
    ∀ x ∈ fillSampled psd lo hi w, 0 ≤ x := by
  unfold fillSampled
  generalize intRange lo hi = L
  induction L generalizing w with
  | nil => exact hw
  | cons i rest ih =>
      simp only [List.foldl_cons]
      apply ih
      intro x hx
      split at hx
      · unfold npSet at hx
        have hnn : 0 ≤ 1 / npGet psd i := by
          apply div_nonneg (by norm_num)
          unfold npGet
          split <;> exact getD_nonneg _ hpsd _
        split at hx <;>
          (rcases List.mem_or_eq_of_mem_set hx with h | h
           · exact hw _ h
           · rw [h]; exact hnn)
      · exact hw _ hx

/-- The sampled-PSD branches can only fail with a configuration error:
a zero PSD bin never raises a division error. -/
theorem mkWeightsA_sampled_no_zeroDivision (fMax fNyq dF : ℚ) (lo hi : ℤ)
    (n1 : ℕ) (psd : PSDSource) (hp : ∀ S, psd ≠ .analytic S) :
    mkWeightsA fMax fNyq dF lo hi n1 psd ≠ .error .zeroDivision := by
  cases psd with
  | analytic S => exact absurd rfl (hp S)
  | series f0 psdDF data =>
      simp only [mkWeightsA]
      split
      · simp
      · split
        · simp
        · split
          · simp
          · split <;> simp
  | array data =>
      simp only [mkWeightsA]
      split
      · simp
      · split <;> simp

theorem mkWeightsB_no_zeroDivision (sq : ℚ → ℚ) (rK fK : ℕ → ℕ → Cq)
    (dF dT : ℚ) (n1 n2 : ℕ) (q : Bool) (T : ℚ) (wA : List ℚ) :
    mkWeightsB sq rK fK dF dT n1 n2 q T wA ≠ .error .zeroDivision := by
  unfold mkWeightsB
  split
  · split <;> simp
  · simp

theorem twoSide_eq (w : List ℚ) (N : ℕ) (hN : w.length = N) (h2 : 2 ≤ N) :
    twoSide (2 * (N - 1)) w = w.reverse.take (N - 1) ++ w.dropLast := by
  unfold twoSide npSliceAssign
  rw [List.take_zero, List.nil_append, List.drop_replicate]
  have hrev : w.reverse.length = N := by simp [hN]
  have htake : (N - 1) ≤ (w.reverse ++ List.replicate (2 * (N - 1) - (0 + w.reverse.length)) 0).length → True := fun _ => trivial
  rw [hN]
  rw [List.take_append_of_le_length (by omega : N - 1 ≤ w.reverse.length)]
  have hdrop : (w.reverse ++ List.replicate (2 * (N - 1) - (0 + w.reverse.length)) 0).length
      ≤ N - 1 + w.dropLast.length := by
    simp [hrev, hN]
    omega
  rw [List.drop_eq_nil_of_le hdrop, List.append_nil]

theorem twoSide_length (w : List ℚ) (N : ℕ) (hN : w.length = N) (h2 : 2 ≤ N) :
    (twoSide (2 * (N - 1)) w).length = 2 * N - 2 := by
  rw [twoSide_eq w N hN h2]
  simp [hN]
  omega

theorem dropLast_getD (l : List ℚ) (k : ℕ) (hk : k < l.length - 1) :
    l.dropLast.getD k 0 = l.getD k 0 := by
  rw [List.getD_eq_getElem _ _ (by simp; omega), List.getElem_dropLast,
    List.getD_eq_getElem _ _ (by omega)]

theorem twoSide_getD_hi (w : List ℚ) (N k : ℕ) (hN : w.length = N)
    (h2 : 2 ≤ N) (hk : k < N - 1) :
    (twoSide (2 * (N - 1)) w).getD (N - 1 + k) 0 = w.getD k 0 := by
  rw [twoSide_eq w N hN h2]
  have hlen : (w.reverse.take (N - 1)).length = N - 1 := by simp [hN]
  rw [List.getD_append_right _ _ _ _ (by omega), hlen]
  have : N - 1 + k - (N - 1) = k := by omega
  rw [this, dropLast_getD _ _ (by omega)]

theorem twoSide_getD_lo (w : List ℚ) (N k : ℕ) (hN : w.length = N)
    (h2 : 2 ≤ N) (hk : k < N - 1) :
    (twoSide (2 * (N - 1)) w).getD (N - 1 - k) 0 = w.getD k 0 := by
  rw [twoSide_eq w N hN h2]
  have hlen : (w.reverse.take (N - 1)).length = N - 1 := by simp [hN]
  by_cases hk0 : k = 0
  · subst hk0
    rw [List.getD_append_right _ _ _ _ (by omega), hlen]
    have hz : N - 1 - 0 - (N - 1) = 0 := by omega
    rw [hz, dropLast_getD _ _ (by omega)]
  · rw [List.getD_append _ _ _ _ (by omega)]
    have h1 : N - 1 - k < N - 1 := by omega
    rw [List.getD_eq_getElem _ _ (by simpa [hlen] using h1)]
    rw [List.getElem_take, List.getElem_reverse]
    rw [List.getD_eq_getElem _ _ (by omega)]
    congr 1
    omega

theorem wProd_length (a b : List Cq) (w : List ℚ) :
    (wProd a b w).length = min (min a.length b.length) w.length := by
  simp [wProd]

theorem wSum_eq_sum_range (a b : List Cq) (w : List ℚ) (n : ℕ)
    (ha : a.length = n) (hb : b.length = n) (hw : w.length = n) :
    wSum a b w = ∑ i ∈ Finset.range n,
      Cq.conj (a.getD i 0) * b.getD i 0 * Cq.ofRat (w.getD i 0) := by
  induction n generalizing a b w with
  | zero =>
      rw [List.length_eq_zero] at ha hb hw
      subst ha; subst hb; subst hw
      rfl
  | succ m ih =>
      cases a with
      | nil => simp at ha
      | cons x a' =>
          cases b with
          | nil => simp at hb
          | cons y b' =>
              cases w with
              | nil => simp at hw
              | cons c w' =>
                  rw [Finset.sum_range_succ']
                  have ha' : a'.length = m := by simpa using ha
                  have hb' : b'.length = m := by simpa using hb
                  have hw' : w'.length = m := by simpa using hw
                  have : wSum (x :: a') (y :: b') (c :: w')
                      = Cq.conj x * y * Cq.ofRat c + wSum a' b' w' := by
                    simp [wSum, wProd, List.zipWith]
                  rw [this, ih a' b' w' ha' hb' hw']
                  simp [List.getD_cons_succ, List.getD_cons_zero]
                  ring

theorem wProd_self (a : List Cq) (w : List ℚ) :
    wProd a a w = List.zipWith (fun x c => Cq.ofRat (Cq.normSq x * c)) a w := by
  unfold wProd
  induction a generalizing w with
  | nil => rfl
  | cons x a' ih =>
      cases w with
      | nil => rfl
      | cons c w' =>
          simp only [List.zipWith]
          rw [Cq.conj_mul_self, ← Cq.ofRat_mul]
          exact congrArg _ (ih w')

theorem sum_map_ofRat (l : List ℚ) : (l.map Cq.ofRat).sum = Cq.ofRat l.sum := by
  induction l with
  | nil => rfl
  | cons x l ih => simp [ih, Cq.ofRat_add]

theorem wSum_self (a : List Cq) (w : List ℚ) :
    wSum a a w
      = Cq.ofRat ((List.zipWith (fun x c => Cq.normSq x * c) a w).sum) := by
  rw [wSum, wProd_self, ← List.map_zipWith, sum_map_ofRat]

theorem zipWith_normSq_sum_nonneg (a : List Cq) (w : List ℚ)
    (hw : ∀ c ∈ w, 0 ≤ c) :
    0 ≤ (List.zipWith (fun x c => Cq.normSq x * c) a w).sum := by
  induction a generalizing w with
  | nil => simp
  | cons x a' ih =>
      cases w with
      | nil => simp
      | cons c w' =>
          simp only [List.zipWith, List.sum_cons]
          have h1 : 0 ≤ Cq.normSq x * c :=
            mul_nonneg (Cq.normSq_nonneg x) (hw c (List.mem_cons_self c w'))
          have h2 := ih w' (fun d hd => hw d (List.mem_cons_of_mem c hd))
          linarith

theorem wrapTimes_length (st : IPState) : (wrapTimes st).length = st.len2side := by
  simp [wrapTimes]

theorem wrapTimes_getD (st : IPState) (i : ℕ) (hi : i < st.len2side) :
    (wrapTimes st).getD i 0
      = if st.len1side ≤ i then
          (i : ℚ) * ovDeltaT st - (st.len2side : ℚ) * ovDeltaT st
        else (i : ℚ) * ovDeltaT st := by
  unfold wrapTimes
  rw [List.getD_eq_getElem _ _ (by simpa using hi)]
  simp

theorem foldl_max_le (l : List ℚ) (a B : ℚ) (ha : a ≤ B)
    (hl : ∀ x ∈ l, x ≤ B) : l.foldl max a ≤ B := by
  induction l generalizing a with
  | nil => exact ha
  | cons x l ih =>
      simp only [List.foldl_cons]
      exact ih _ (max_le ha (hl x (List.mem_cons_self x l)))
        (fun y hy => hl y (List.mem_cons_of_mem x hy))

theorem le_foldl_max (l : List ℚ) (a : ℚ) : a ≤ l.foldl max a := by
  induction l generalizing a with
  | nil => exact le_refl a
  | cons x l ih =>
      simp only [List.foldl_cons]
      exact le_trans (le_max_left a x) (ih _)

theorem mem_le_foldl_max (l : List ℚ) (a x : ℚ) (hx : x ∈ l) :
    x ≤ l.foldl max a := by
  induction l generalizing a with
  | nil => cases hx
  | cons y l ih =>
      simp only [List.foldl_cons]
      rcases List.mem_cons.mp hx with rfl | hmem
      · exact le_trans (le_max_right a x) (le_foldl_max l _)
      · exact ih _ hmem

/-- `np.abs(l).max()` squared equals (`normSq` of) the element dominating
all magnitudes. -/
theorem maxNormSq_eq (l : List Cq) (z : Cq) (hz : z ∈ l)
    (hmax : ∀ y ∈ l, Cq.normSq y ≤ Cq.normSq z) :
    maxNormSq l = Cq.normSq z := by
  unfold maxNormSq
  apply le_antisymm
  · apply foldl_max_le
    · exact Cq.normSq_nonneg z
    · intro x hx
      rcases List.mem_map.mp hx with ⟨y, hy, rfl⟩
      exact hmax y hy
  · exact mem_le_foldl_max _ _ _ (List.mem_map_of_mem _ hz)

theorem normSq_add (A B : Cq) :
    Cq.normSq (A + B)
      = Cq.normSq A + 2 * (A.re * B.re + A.im * B.im) + Cq.normSq B := by
  simp only [Cq.normSq, Cq.add_re, Cq.add_im]; ring

theorem cq_dot_sq_le (A B : Cq) :
    (A.re * B.re + A.im * B.im) ^ 2 ≤ Cq.normSq A * Cq.normSq B := by
  simp only [Cq.normSq]
  nlinarith [sq_nonneg (A.re * B.im - A.im * B.re)]

/-- Kernel-one evaluation: with all kernel factors `1` and all entries
real, the indexed sum collapses to the plain real sum. -/
theorem idxSum_kernel_one (K : ℕ → Cq) (hK : ∀ k, K k = 1) (x : List Cq)
    (hx : ∀ z ∈ x, z.im = 0) :
    ∀ s : ℕ, idxSum (fun k z => z * K k) s x = Cq.ofRat ((x.map Cq.re).sum) := by
  induction x with
  | nil => intro s; rfl
  | cons z rest ih =>
      intro s
      have hz : z = Cq.ofRat z.re := by
        ext
        · rfl
        · simpa using hx z (List.mem_cons_self z rest)
      simp only [idxSum, hK s, mul_one, List.map_cons, List.sum_cons]
      rw [ih (fun y hy => hx y (List.mem_cons_of_mem z hy)) (s + 1),
        Cq.ofRat_add]
      exact congrArg (· + _) hz

/-- Triangle inequality for the modelled DFT: with a unit-magnitude kernel
and real non-negative entries, every sample magnitude is bounded by the
plain real sum. -/
theorem idxSum_normSq_le (K : ℕ → Cq) (hK : ∀ k, Cq.normSq (K k) = 1)
    (x : List Cq) (hx : ∀ z ∈ x, z.im = 0 ∧ 0 ≤ z.re) :
    ∀ s : ℕ,
      Cq.normSq (idxSum (fun k z => z * K k) s x) ≤ ((x.map Cq.re).sum) ^ 2 := by
  induction x with
  | nil => intro s; simp [idxSum]
  | cons z rest ih =>
      intro s
      obtain ⟨hzim, hzre⟩ := hx z (List.mem_cons_self z rest)
      have hrest := fun y hy => hx y (List.mem_cons_of_mem z hy)
      have hT := ih hrest (s + 1)
      have hC : 0 ≤ (rest.map Cq.re).sum := by
        apply List.sum_nonneg
        intro q hq
        rcases List.mem_map.mp hq with ⟨y, hy, rfl⟩
        exact (hrest y hy).2
      set T := idxSum (fun k z => z * K k) (s + 1) rest with hTdef
      set C := (rest.map Cq.re).sum with hCdef
      have hdot : (K s).re * T.re + (K s).im * T.im ≤ C := by
        have h1 := cq_dot_sq_le (K s) T
        rw [hK s, one_mul] at h1
        nlinarith [Cq.normSq_nonneg T]
      have hhead : Cq.normSq (z * K s) = z.re ^ 2 := by
        rw [Cq.normSq_mul, hK s, mul_one]
        simp [Cq.normSq, hzim]
        ring
      have hcross : (z * K s).re * T.re + (z * K s).im * T.im
          = z.re * ((K s).re * T.re + (K s).im * T.im) := by
        simp [hzim]
        ring
      simp only [idxSum, List.map_cons, List.sum_cons]
      rw [normSq_add, hhead, hcross]
      have hmul : z.re * ((K s).re * T.re + (K s).im * T.im) ≤ z.re * C :=
        mul_le_mul_of_nonneg_left hdot hzre
      nlinarith [hT]

theorem wProdSelf_entries (a : List Cq) (w : List ℚ) (hw : ∀ c ∈ w, 0 ≤ c) :
    ∀ z ∈ wProd a a w, z.im = 0 ∧ 0 ≤ z.re := by
  rw [wProd_self]
  induction a generalizing w with
  | nil => intro z hz; cases hz
  | cons x a' ih =>
      intro z hz
      cases w with
      | nil => cases hz
      | cons c w' =>
          simp only [List.zipWith] at hz
          rcases List.mem_cons.mp hz with rfl | hmem
          · refine ⟨rfl, ?_⟩
            exact mul_nonneg (Cq.normSq_nonneg x) (hw c (List.mem_cons_self c w'))
          · exact ih w' (fun d hd => hw d (List.mem_cons_of_mem c hd)) z hmem

theorem overlapIntgd_eq (st : IPState) (h1 h2 : FreqSeries)
    (hl1 : h1.data.length = st.len1side) (hl2 : h2.data.length = st.len1side)
    (hw : st.weights.length = st.len1side) (h2le : 2 ≤ st.len1side)
    (hside : st.len2side = 2 * (st.len1side - 1)) :
    overlapIntgd st h1 h2 = List.replicate (st.len1side - 1) (0 : Cq) ++
      ((wProd h1.data h2.data st.weights).map (fun z => Cq.ofRat 4 * z)).dropLast := by
  have htemp : ((wProd h1.data h2.data st.weights).map
      (fun z => Cq.ofRat 4 * z)).length = st.len1side := by
    simp [wProd_length, hl1, hl2, hw]
  simp only [overlapIntgd, npSliceAssign]
  rw [List.take_zero, List.nil_append, List.length_replicate,
    List.drop_replicate]
  rw [← List.replicate_add]
  have h12 : st.len1side + (st.len2side - (0 + st.len1side)) = st.len2side := by
    omega
  rw [h12, List.take_replicate, List.length_dropLast, htemp]
  have hmin : min (st.len1side - 1) st.len2side = st.len1side - 1 := by omega
  rw [hmin]
  have hdrop : st.len2side ≤ st.len1side - 1 + (st.len1side - 1) := by omega
  rw [List.drop_eq_nil_of_le (by simpa using hdrop), List.append_nil]

theorem overlapIntgd_entries (st : IPState) (h : FreqSeries)
    (hl : h.data.length = st.len1side) (hw : st.weights.length = st.len1side)
    (h2le : 2 ≤ st.len1side) (hside : st.len2side = 2 * (st.len1side - 1))
    (hwpos : ∀ c ∈ st.weights, 0 ≤ c) :
    ∀ z ∈ overlapIntgd st h h, z.im = 0 ∧ 0 ≤ z.re := by
  rw [overlapIntgd_eq st h h hl hl hw h2le hside]
  intro z hz
  rcases List.mem_append.mp hz with hz | hz
  · rw [List.eq_of_mem_replicate hz]
    exact ⟨rfl, le_refl 0⟩
  · have hz' := (List.dropLast_sublist _).subset hz
    rcases List.mem_map.mp hz' with ⟨y, hy, rfl⟩
    obtain ⟨hyim, hyre⟩ := wProdSelf_entries _ _ hwpos y hy
    constructor
    · simp [hyim]
    · simp [hyim]
      linarith

theorem sum_map_mul_left_rat (l : List ℚ) (b : ℚ) :
    (l.map (fun q => b * q)).sum = b * l.sum := by
  induction l with
  | nil => simp
  | cons q l ih => simp [ih]; ring

theorem overlapIntgd_re_sum (st : IPState) (h : FreqSeries)
    (hl : h.data.length = st.len1side) (hw : st.weights.length = st.len1side)
    (h2le : 2 ≤ st.len1side) (hside : st.len2side = 2 * (st.len1side - 1))
    (hnyq : st.weights.getD (st.len1side - 1) 0 = 0) :
    ((overlapIntgd st h h).map Cq.re).sum
      = 4 * (List.zipWith (fun x c => Cq.normSq x * c) h.data st.weights).sum := by
  rw [overlapIntgd_eq st h h hl hl hw h2le hside]
  set T := (wProd h.data h.data st.weights).map (fun z => Cq.ofRat 4 * z)
    with hTdef
  have hT : T = List.zipWith (fun x c => Cq.ofRat (4 * (Cq.normSq x * c)))
      h.data st.weights := by
    rw [hTdef, wProd_self, List.map_zipWith]
    congr 1
    funext x c
    simp [Cq.ofRat_mul]
  have hTlen : T.length = st.len1side := by
    rw [hTdef]; simp [wProd_length, hl, hw]
  have hTne : T ≠ [] := by
    intro hnil
    rw [hnil] at hTlen
    simp at hTlen
    omega
  rw [List.map_append, List.sum_append]
  have hrep : ((List.replicate (st.len1side - 1) (0 : Cq)).map Cq.re).sum = 0 := by
    simp
  rw [hrep, zero_add]
  have hfull : (T.map Cq.re).sum
      = ((T.dropLast).map Cq.re).sum + (T.getLast hTne).re := by
    conv_lhs => rw [← List.dropLast_append_getLast hTne]
    simp
  have hgl : T.getLast hTne = T.getD (st.len1side - 1) 0 := by
    rw [List.getLast_eq_getElem, ← List.getD_eq_getElem T 0 (by omega)]
    congr 1
    rw [hTlen]
  have hzlen : st.len1side - 1 < (List.zipWith
      (fun x c => Cq.ofRat (4 * (Cq.normSq x * c))) h.data st.weights).length := by
    simp [hl, hw]; omega
  have hwv : st.weights.get ⟨st.len1side - 1, by omega⟩ = 0 := by
    rw [List.get_eq_getElem, ← List.getD_eq_getElem st.weights 0 (by omega)]
    exact hnyq
  have hlast : (T.getLast hTne).re = 0 := by
    rw [hgl, hT, List.getD_eq_getElem _ 0 hzlen, List.getElem_zipWith]
    simp
    exact Or.inr hwv
  have hsum : (T.map Cq.re).sum
      = 4 * (List.zipWith (fun x c => Cq.normSq x * c) h.data st.weights).sum := by
    rw [hT, List.map_zipWith]
    have hcoll : (List.zipWith (fun x c => (Cq.ofRat (4 * (Cq.normSq x * c))).re)
        h.data st.weights)
        = (List.zipWith (fun x c => Cq.normSq x * c) h.data st.weights).map
            (fun q => 4 * q) := by
      rw [List.map_zipWith]
      rfl
    rw [hcoll, sum_map_mul_left_rat]
  have := hfull.symm.trans hsum
  linarith [this, hlast]

theorem freqTimeFFT_getD (K : ℕ → ℕ → Cq) (dF : ℚ) (n : ℕ) (x : List Cq)
    (j : ℕ) (hj : j < n) :
    (freqTimeFFT K dF n x).getD j 0
      = Cq.ofRat dF * idxSum (fun k z => z * K j k) 0 x := by
  unfold freqTimeFFT
  rw [List.getD_eq_getElem _ _ (by simpa using hj)]
  simp

theorem realIPip_err_df (st : IPState) (h1 h2 : FreqSeries)
    (hv : TOL_DF < |h1.deltaF - h2.deltaF| ∨ TOL_DF < |h1.deltaF - st.deltaF|) :
    realIPip st h1 h2 = .error .precondition := by
  unfold realIPip
  split
  · rfl
  · split
    · rfl
    · split
      · rfl
      · rename_i hc
        obtain ⟨hA, hB⟩ := not_not.mp hc
        rcases hv with hv | hv <;> linarith

theorem hermIPip_err_df (st : IPState) (h1 h2 : FreqSeries)
    (hv : TOL_DF < |h1.deltaF - h2.deltaF| ∨ TOL_DF < |h1.deltaF - st.deltaF|) :
    hermIPip st h1 h2 = .error .precondition := by
  unfold hermIPip
  split
  · rfl
  · split
    · rfl
    · split
      · rfl
      · rename_i hc
        obtain ⟨hA, hB⟩ := not_not.mp hc
        rcases hv with hv | hv <;> linarith

theorem complexIPip_err_df (st : IPState) (h1 h2 : FreqSeries)
    (hv : TOL_DF < |h1.deltaF - h2.deltaF| ∨ TOL_DF < |h1.deltaF - st.deltaF|) :
    complexIPip st h1 h2 = .error .precondition := by
  unfold complexIPip
  split
  · rfl
  · split
    · rfl
    · split
      · rfl
      · rename_i hc
        obtain ⟨hA, hB⟩ := not_not.mp hc
        rcases hv with hv | hv <;> linarith

theorem overlapSeries_err_df (K : ℕ → ℕ → Cq) (st : IPState) (h1 h2 : FreqSeries)
    (hv : TOL_DF < |h1.deltaF - h2.deltaF| ∨ TOL_DF < |h1.deltaF - st.deltaF|) :
    overlapSeries K st h1 h2 = .error .precondition := by
  unfold overlapSeries
  split
  · rfl
  · split
    · rfl
    · split
      · rfl
      · rename_i hc
        obtain ⟨hA, hB⟩ := not_not.mp hc
        rcases hv with hv | hv <;> linarith

theorem covlpSeries_err_df (K : ℕ → ℕ → Cq) (st : IPState) (h1 h2 : FreqSeries)
    (hv : TOL_DF < |h1.deltaF - h2.deltaF| ∨ TOL_DF < |h1.deltaF - st.deltaF|) :
    covlpSeries K st h1 h2 = .error .precondition := by
  unfold covlpSeries
  split
  · rfl
  · split
    · rfl
    · split
      · rfl
      · rename_i hc
        obtain ⟨hA, hB⟩ := not_not.mp hc
        rcases hv with hv | hv <;> linarith

theorem realIPip_err_len1 (st : IPState) (h1 h2 : FreqSeries)
    (hv : h1.data.length ≠ st.len1side) :
    realIPip st h1 h2 = .error .precondition := by
  unfold realIPip
  rw [if_pos hv]

theorem realIPip_err_len2 (st : IPState) (h1 h2 : FreqSeries)
    (hv : h2.data.length ≠ st.len1side) :
    realIPip st h1 h2 = .error .precondition := by
  unfold realIPip
  split
  · rfl
  · rfl

theorem hermIPip_err_len1 (st : IPState) (h1 h2 : FreqSeries)
    (hv : h1.data.length ≠ st.len1side) :
    hermIPip st h1 h2 = .error .precondition := by
  unfold hermIPip
  rw [if_pos hv]

theorem hermIPip_err_len2 (st : IPState) (h1 h2 : FreqSeries)
    (hv : h2.data.length ≠ st.len1side) :
    hermIPip st h1 h2 = .error .precondition := by
  unfold hermIPip
  split
  · rfl
  · rfl

theorem complexIPip_err_len (st : IPState) (h1 h2 : FreqSeries)
    (hv : h1.data.length ≠ st.len2side ∨ h2.data.length ≠ st.len2side) :
    complexIPip st h1 h2 = .error .precondition := by
  unfold complexIPip
  split
  · rfl
  · rename_i hab
    split
    · rfl
    · rename_i hbn
      exfalso
      have h1e := not_not.mp hab
      have h2e := not_not.mp hbn
      rcases hv with hv | hv
      · exact hv (h1e.trans h2e)
      · exact hv h2e

theorem covlpSeries_err_len (K : ℕ → ℕ → Cq) (st : IPState) (h1 h2 : FreqSeries)
    (hv : h1.data.length ≠ st.len2side ∨ h2.data.length ≠ st.len2side) :
    covlpSeries K st h1 h2 = .error .precondition := by
  unfold covlpSeries
  split
  · rfl
  · rename_i hab
    split
    · rfl
    · rename_i hbn
      exfalso
      have h1e := not_not.mp hab
      have h2e := not_not.mp hbn
      rcases hv with hv | hv
      · exact hv (h1e.trans h2e)
      · exact hv h2e

theorem overlapSeries_err_len (K : ℕ → ℕ → Cq) (st : IPState) (h1 h2 : FreqSeries)
    (hv : h1.data.length ≠ st.len1side ∨ h2.data.length ≠ st.len1side) :
    overlapSeries K st h1 h2 = .error .precondition := by
  unfold overlapSeries
  split
  · rfl
  · rename_i hab
    split
    · rfl
    · rename_i hbn
      exfalso
      have h1e := not_not.mp hab
      have h2e := not_not.mp hbn
      rcases hv with hv | hv
      · exact hv (h1e.trans h2e)
      · exact hv h2e

theorem getD_replicate_zero (n j : ℕ) : (List.replicate n (0 : ℚ)).getD j 0 = 0 := by
  rcases lt_or_le j n with h | h
  · rw [List.getD_eq_getElem _ _ (by simpa using h)]
    exact List.getElem_replicate ..
  · rw [List.getD_eq_default _ _ (by simpa using h)]

theorem mkWeightsA_array_ok (fMax fNyq dF : ℚ) (lo hi : ℤ) (n1 : ℕ)
    (data : List ℚ) (w : List ℚ)
    (h : mkWeightsA fMax fNyq dF lo hi n1 (.array data) = .ok w) :
    w = fillSampled data lo hi (List.replicate n1 0) := by
  simp only [mkWeightsA] at h
  split at h
  · cases h
  · split at h
    · cases h
    · cases h; rfl

theorem mkWeightsA_series_ok (fMax fNyq dF : ℚ) (lo hi : ℤ) (n1 : ℕ)
    (f0 psdDF : ℚ) (data : List ℚ) (w : List ℚ)
    (h : mkWeightsA fMax fNyq dF lo hi n1 (.series f0 psdDF data) = .ok w) :
    w = fillSampled data lo hi (List.replicate n1 0) := by
  simp only [mkWeightsA] at h
  split at h
  · cases h
  · split at h
    · cases h
    · split at h
      · cases h
      · split at h
        · cases h
        · cases h; rfl

theorem mkWeightsB_false_ok (sq : ℚ → ℚ) (rK fK : ℕ → ℕ → Cq) (dF dT : ℚ)
    (n1 n2 : ℕ) (T : ℚ) (wA w : List ℚ)
    (h : mkWeightsB sq rK fK dF dT n1 n2 false T wA = .ok w) : w = wA := by
  simp only [mkWeightsB, Bool.false_eq_true, if_false] at h
  cases h; rfl

theorem mk_no_zeroDivision (sq : ℚ → ℚ) (rK fK : ℕ → ℕ → Cq) (fLow : ℚ)
    (fMO : Option ℚ) (fNyq dF : ℚ) (psd : PSDSource) (q : Bool) (T : ℚ)
    (hpA : mkWeightsA (fMO.getD fNyq) fNyq dF (pyRound (fLow / dF))
      (pyRound ((fMO.getD fNyq) / dF)) ((pyInt (fNyq / dF) + 1).toNat) psd
      ≠ .error .zeroDivision) :
    mkInnerProduct sq rK fK fLow fMO fNyq dF psd q T ≠ .error .zeroDivision := by
  unfold mkInnerProduct
  cases hA : mkWeightsA (fMO.getD fNyq) fNyq dF (pyRound (fLow / dF))
      (pyRound ((fMO.getD fNyq) / dF)) ((pyInt (fNyq / dF) + 1).toNat) psd with
  | error e =>
      simp only [Except.bind]
      intro hc
      cases hc
      exact hpA hA
  | ok wA =>
      simp only [Except.bind]
      cases hB : mkWeightsB sq rK fK dF (1 / 2 / fNyq)
          ((pyInt (fNyq / dF) + 1).toNat)
          (2 * (((pyInt (fNyq / dF) + 1).toNat) - 1)) q T wA with
      | error e =>
          simp only [Except.bind]
          intro hc
          cases hc
          exact mkWeightsB_no_zeroDivision _ _ _ _ _ _ _ _ _ _ hB
      | ok wB =>
          simp only [Except.bind]
          intro hc
          cases hc

/-! ### Claim theorems -/

/-- C1: for series meeting the length and `deltaF` preconditions,
`RealIP.ip(h1,h2)` returns `4·deltaF·Re(Σᵢ conj(h1[i])·h2[i]·weights[i])`
with the one-sided weights, and `ComplexIP.ip(g1,g2)` returns the complex
value `2·deltaF·Σᵢ conj(g1[i])·g2[i]·weights2side[i]` with the two-sided
weights and no real part taken. -/
theorem C1_ip_formulas (st : IPState) (h1 h2 g1 g2 : FreqSeries)
    (hw : st.weights.length = st.len1side)
    (hw2 : st.weights2side.length = st.len2side)
    (hl1 : h1.data.length = st.len1side) (hl2 : h2.data.length = st.len1side)
    (hdf : |h1.deltaF - h2.deltaF| ≤ TOL_DF ∧ |h1.deltaF - st.deltaF| ≤ TOL_DF)
    (hg1 : g1.data.length = st.len2side) (hg2 : g2.data.length = st.len2side)
    (hdg : |g1.deltaF - g2.deltaF| ≤ TOL_DF ∧ |g1.deltaF - st.deltaF| ≤ TOL_DF) :
    realIPip st h1 h2 = .ok (4 * st.deltaF * (∑ i ∈ Finset.range st.len1side,
        Cq.conj (h1.data.getD i 0) * h2.data.getD i 0
          * Cq.ofRat (st.weights.getD i 0)).re)
    ∧ complexIPip st g1 g2 = .ok (Cq.ofRat (2 * st.deltaF)
        * ∑ i ∈ Finset.range st.len2side,
            Cq.conj (g1.data.getD i 0) * g2.data.getD i 0
              * Cq.ofRat (st.weights2side.getD i 0)) := by
  constructor
  · unfold realIPip
    rw [if_neg (by simp [hl1]), if_neg (by simp [hl2]), if_neg (not_not_intro hdf)]
    rw [wSum_eq_sum_range h1.data h2.data st.weights st.len1side hl1 hl2 hw]
  · unfold complexIPip
    rw [if_neg (by simp [hg1, hg2]), if_neg (by simp [hg2]),
      if_neg (not_not_intro hdg)]
    rw [wSum_eq_sum_range g1.data g2.data st.weights2side st.len2side hg1 hg2 hw2]

theorem C1_witness :
    realIPip ⟨0, 1, 1, 2/3, 1/2, 2, 2, 0, 2, [1, 1], [1, 1]⟩
        ⟨2/3, [1, 1]⟩ ⟨2/3, [1, 1]⟩
      = .ok (4 * (2/3) * (∑ i ∈ Finset.range 2,
          Cq.conj (([1, 1] : List Cq).getD i 0) * ([1, 1] : List Cq).getD i 0
            * Cq.ofRat (([1, 1] : List ℚ).getD i 0)).re)
    ∧ complexIPip ⟨0, 1, 1, 2/3, 1/2, 2, 2, 0, 2, [1, 1], [1, 1]⟩
        ⟨2/3, [1, 1]⟩ ⟨2/3, [1, 1]⟩
      = .ok (Cq.ofRat (2 * (2/3)) * ∑ i ∈ Finset.range 2,
          Cq.conj (([1, 1] : List Cq).getD i 0) * ([1, 1] : List Cq).getD i 0
            * Cq.ofRat (([1, 1] : List ℚ).getD i 0)) :=
  C1_ip_formulas ⟨0, 1, 1, 2/3, 1/2, 2, 2, 0, 2, [1, 1], [1, 1]⟩
    ⟨2/3, [1, 1]⟩ ⟨2/3, [1, 1]⟩ ⟨2/3, [1, 1]⟩ ⟨2/3, [1, 1]⟩
    (by decide) (by decide) (by decide) (by decide)
    ⟨by norm_num [TOL_DF], by norm_num [TOL_DF]⟩ (by decide) (by decide)
    ⟨by norm_num [TOL_DF], by norm_num [TOL_DF]⟩

/-- C5 (amended): a call fails with a precondition error whenever the two
series' `deltaF` differ by more than `TOL_DF`, or `h1`'s `deltaF` differs
from the configured one by more than `TOL_DF`, or a series length differs
from the convention's expected weight-array length.  (`h2`'s `deltaF` is
never compared against the configured `deltaF` directly — see the
counterexample.) -/
theorem C5_precondition_errors (st : IPState) (K : ℕ → ℕ → Cq)
    (h1 h2 : FreqSeries) :
    ((TOL_DF < |h1.deltaF - h2.deltaF| ∨ TOL_DF < |h1.deltaF - st.deltaF|) →
      realIPip st h1 h2 = .error .precondition ∧
      hermIPip st h1 h2 = .error .precondition ∧
      complexIPip st h1 h2 = .error .precondition ∧
      overlapSeries K st h1 h2 = .error .precondition ∧
      covlpSeries K st h1 h2 = .error .precondition)
    ∧ (h1.data.length ≠ st.len1side →
      realIPip st h1 h2 = .error .precondition ∧
      hermIPip st h1 h2 = .error .precondition ∧
      overlapSeries K st h1 h2 = .error .precondition)
    ∧ (h2.data.length ≠ st.len1side →
      realIPip st h1 h2 = .error .precondition ∧
      hermIPip st h1 h2 = .error .precondition ∧
      overlapSeries K st h1 h2 = .error .precondition)
    ∧ (h1.data.length ≠ st.len2side →
      complexIPip st h1 h2 = .error .precondition ∧
      covlpSeries K st h1 h2 = .error .precondition)
    ∧ (h2.data.length ≠ st.len2side →
      complexIPip st h1 h2 = .error .precondition ∧
      covlpSeries K st h1 h2 = .error .precondition) := by
  refine ⟨fun hv => ⟨?_, ?_, ?_, ?_, ?_⟩, fun hv => ⟨?_, ?_, ?_⟩,
    fun hv => ⟨?_, ?_, ?_⟩, fun hv => ⟨?_, ?_⟩, fun hv => ⟨?_, ?_⟩⟩
  · exact realIPip_err_df st h1 h2 hv
  · exact hermIPip_err_df st h1 h2 hv
  · exact complexIPip_err_df st h1 h2 hv
  · exact overlapSeries_err_df K st h1 h2 hv
  · exact covlpSeries_err_df K st h1 h2 hv
  · exact realIPip_err_len1 st h1 h2 hv
  · exact hermIPip_err_len1 st h1 h2 hv
  · exact overlapSeries_err_len K st h1 h2 (Or.inl hv)
  · exact realIPip_err_len2 st h1 h2 hv
  · exact hermIPip_err_len2 st h1 h2 hv
  · exact overlapSeries_err_len K st h1 h2 (Or.inr hv)
  · exact complexIPip_err_len st h1 h2 (Or.inl hv)
  · exact covlpSeries_err_len K st h1 h2 (Or.inl hv)
  · exact complexIPip_err_len st h1 h2 (Or.inr hv)
  · exact covlpSeries_err_len K st h1 h2 (Or.inr hv)

theorem C5_witness :
    realIPip ⟨0, 1, 1, 1/2, 1/2, 3, 4, 0, 2, [1, 1, 0], [0, 1, 1, 1]⟩
        ⟨1, [1, 1, 1]⟩ ⟨1/2, [1, 1, 1]⟩ = .error .precondition
    ∧ complexIPip ⟨0, 1, 1, 1/2, 1/2, 3, 4, 0, 2, [1, 1, 0], [0, 1, 1, 1]⟩
        ⟨1, [1, 1, 1]⟩ ⟨1/2, [1, 1, 1]⟩ = .error .precondition := by
  have h := C5_precondition_errors
    ⟨0, 1, 1, 1/2, 1/2, 3, 4, 0, 2, [1, 1, 0], [0, 1, 1, 1]⟩
    (fun _ _ => 1) ⟨1, [1, 1, 1]⟩ ⟨1/2, [1, 1, 1]⟩
  have habs : |(1 : ℚ) - 1/2| = 1/2 := by
    rw [show ((1 : ℚ) - 1/2) = 1/2 by norm_num,
      abs_of_nonneg (by norm_num : (0:ℚ) ≤ 1/2)]
  have hd := h.1 (Or.inl (by rw [habs]; norm_num [TOL_DF]))
  exact ⟨hd.1, hd.2.2.1⟩

/-- C5 counterexample: the claim as stated is false — with `h2.deltaF`
`2e-6` away from the configured `deltaF` while `h1.deltaF` is within
tolerance of both `h2.deltaF` and the configured value, the call succeeds
and returns a result. -/
theorem C5_counterexample :
    ∃ st, mkInnerProduct (fun q => q) (fun _ _ => 1) (fun _ _ => 1) 0 none 1 (1/2)
        (.analytic (fun _ => 1)) false 0 = .ok st
      ∧ realIPip st ⟨1/2 + 1/1000000, [1, 1, 1]⟩ ⟨1/2 + 2/1000000, [1, 1, 1]⟩
          = .ok 4
      ∧ TOL_DF < |(1/2 + 2/1000000 : ℚ) - st.deltaF| := by
  refine ⟨⟨0, 1, 1, 1/2, 1/2, 3, 4, 0, 2, [1, 1, 0], [0, 1, 1, 1]⟩, ?_, ?_, ?_⟩
  · norm_num [mkInnerProduct, mkWeightsA, mkWeightsB, fillAnalytic, intRange,
      pyInt, pyRound, npSet, twoSide, npSliceAssign, Except.bind,
      List.range_succ, List.foldlM]
    rfl
  · unfold realIPip
    have hdf1 : |(1/2 + 1/1000000 : ℚ) - (1/2 + 2/1000000 : ℚ)| ≤ TOL_DF := by
      rw [show ((1/2 + 1/1000000 : ℚ) - (1/2 + 2/1000000)) = -(1/1000000)
          by norm_num,
        abs_neg, abs_of_nonneg (by norm_num : (0:ℚ) ≤ 1/1000000)]
      norm_num [TOL_DF]
    have hdf2 : |(1/2 + 1/1000000 : ℚ) - (1/2 : ℚ)| ≤ TOL_DF := by
      rw [show ((1/2 + 1/1000000 : ℚ) - (1/2 : ℚ)) = 1/1000000 by norm_num,
        abs_of_nonneg (by norm_num : (0:ℚ) ≤ 1/1000000)]
      norm_num [TOL_DF]
    rw [if_neg (by decide), if_neg (by decide),
      if_neg (not_not_intro ⟨hdf1, hdf2⟩)]
    norm_num [wSum, wProd, List.zipWith_cons_cons, Cq.conj]
  · rw [show ((1/2 + 2/1000000 : ℚ)
      - ({fLow := 0, fMax := 1, fNyq := 1, deltaF := 1/2, deltaT := 1/2,
          len1side := 3, len2side := 4, minIdx := 0, maxIdx := 2,
          weights := [1, 1, 0], weights2side := [0, 1, 1, 1]} : IPState).deltaF)
      = 2/1000000 by norm_num]
    rw [abs_of_nonneg (by norm_num : (0:ℚ) ≤ 2/1000000)]
    norm_num [TOL_DF]

/-- C3 (amended): `wrap_times()` has length `len2side`; entry `0` is `0`;
entries at indices `0..len2side/2` (inclusive, i.e. `0..len1side-1`) are the
non-negative shifts `i·deltaT`, strictly increasing; entries at indices
`len2side/2+1..len2side-1` (i.e. `len1side..len2side-1`) are the negative
shifts `-(len2side-i)·deltaT`, strictly increasing.  (The claim placed the
boundary at index `len2side/2`, which the code keeps non-negative — see the
counterexample.) -/
theorem C3_wrap_times (st : IPState)
    (hside : st.len2side = 2 * (st.len1side - 1)) (h2le : 2 ≤ st.len1side)
    (hdt : 0 < ovDeltaT st) :
    (wrapTimes st).length = st.len2side ∧
    (wrapTimes st).getD 0 0 = 0 ∧
    (∀ i, i < st.len1side →
      (wrapTimes st).getD i 0 = (i : ℚ) * ovDeltaT st ∧
      0 ≤ (wrapTimes st).getD i 0) ∧
    (∀ i, st.len1side ≤ i → i < st.len2side →
      (wrapTimes st).getD i 0 = -((st.len2side - i : ℕ) : ℚ) * ovDeltaT st ∧
      (wrapTimes st).getD i 0 < 0) ∧
    (∀ i, i + 1 < st.len1side →
      (wrapTimes st).getD i 0 < (wrapTimes st).getD (i + 1) 0) ∧
    (∀ i, st.len1side ≤ i → i + 1 < st.len2side →
      (wrapTimes st).getD i 0 < (wrapTimes st).getD (i + 1) 0) := by
  have hlen : st.len1side ≤ st.len2side := by omega
  refine ⟨wrapTimes_length st, ?_, ?_, ?_, ?_, ?_⟩
  · rw [wrapTimes_getD st 0 (by omega), if_neg (by omega : ¬ st.len1side ≤ 0)]
    simp
  · intro i hi
    rw [wrapTimes_getD st i (by omega), if_neg (by omega)]
    exact ⟨rfl, mul_nonneg (by positivity) (le_of_lt hdt)⟩
  · intro i h1i h2i
    rw [wrapTimes_getD st i (by omega), if_pos h1i]
    constructor
    · push_cast [Nat.cast_sub (le_of_lt h2i)]
      ring
    · have hlt : (i : ℚ) < (st.len2side : ℚ) := by exact_mod_cast h2i
      nlinarith
  · intro i hi
    rw [wrapTimes_getD st i (by omega), wrapTimes_getD st (i + 1) (by omega),
      if_neg (by omega), if_neg (by omega)]
    have : (i : ℚ) < (i : ℚ) + 1 := by linarith
    push_cast
    nlinarith
  · intro i h1i h2i
    rw [wrapTimes_getD st i (by omega), wrapTimes_getD st (i + 1) (by omega),
      if_pos h1i, if_pos (by omega)]
    push_cast
    nlinarith

theorem C3_witness :
    (wrapTimes ⟨0, 1, 1, 1/2, 1/2, 3, 4, 0, 2, [1, 1, 0], [0, 1, 1, 1]⟩).getD 0 0
      = 0 ∧
    (wrapTimes ⟨0, 1, 1, 1/2, 1/2, 3, 4, 0, 2, [1, 1, 0], [0, 1, 1, 1]⟩).getD 3 0
      = -((4 - 3 : ℕ) : ℚ)
        * ovDeltaT ⟨0, 1, 1, 1/2, 1/2, 3, 4, 0, 2, [1, 1, 0], [0, 1, 1, 1]⟩ := by
  have h := C3_wrap_times ⟨0, 1, 1, 1/2, 1/2, 3, 4, 0, 2, [1, 1, 0], [0, 1, 1, 1]⟩
    (by decide) (by decide) (by norm_num [ovDeltaT])
  exact ⟨h.2.1, (h.2.2.2.1 3 (by decide) (by decide)).1⟩

/-- C3 counterexample: the claim asserts the entries at indices
`len2side/2..len2side-1` are the negative shifts `-(N-i)·deltaT`; on the
Overlap instance with `fNyq=1, deltaF=1/2` (`len2side = 4`), the entry at
index `2 = len2side/2` is `+1`, not `-1`, and is not negative. -/
theorem C3_counterexample :
    ∃ st, mkInnerProduct (fun q => q) (fun _ _ => 1) (fun _ _ => 1) 0 none 1 (1/2)
        (.analytic (fun _ => 1)) false 0 = .ok st
      ∧ st.len2side = 4
      ∧ wrapTimes st = [0, 1/2, 1, -(1/2)]
      ∧ (wrapTimes st).getD 2 0 ≠ -((4 - 2 : ℕ) : ℚ) * ovDeltaT st
      ∧ ¬ ((wrapTimes st).getD 2 0 < 0) := by
  refine ⟨⟨0, 1, 1, 1/2, 1/2, 3, 4, 0, 2, [1, 1, 0], [0, 1, 1, 1]⟩, ?_, rfl,
    ?_, ?_, ?_⟩
  · norm_num [mkInnerProduct, mkWeightsA, mkWeightsB, fillAnalytic, intRange,
      pyInt, pyRound, npSet, twoSide, npSliceAssign, Except.bind,
      List.range_succ, List.foldlM]
    rfl
  · norm_num [wrapTimes, ovDeltaT, List.range_succ]
  · norm_num [wrapTimes, ovDeltaT, List.range_succ]
  · norm_num [wrapTimes, ovDeltaT, List.range_succ]

/-- C4: for every successfully constructed `InnerProduct`, the two-sided
weight array has length `2·len1side - 2` and mirrors the one-sided array:
`weights2side[len1side-1+k] = weights2side[len1side-1-k] = weights[k]` for
`0 ≤ k < len1side - 1`. -/
theorem C4_twoside_mirror (sq : ℚ → ℚ) (rK fK : ℕ → ℕ → Cq) (fLow : ℚ)
    (fMO : Option ℚ) (fNyq dF : ℚ) (psd : PSDSource) (q : Bool) (T : ℚ)
    (st : IPState)
    (hok : mkInnerProduct sq rK fK fLow fMO fNyq dF psd q T = .ok st)
    (h2le : 2 ≤ st.len1side) :
    st.weights.length = st.len1side ∧
    st.weights2side.length = 2 * st.len1side - 2 ∧
    ∀ k, k < st.len1side - 1 →
      st.weights2side.getD (st.len1side - 1 + k) 0 = st.weights.getD k 0 ∧
      st.weights2side.getD (st.len1side - 1 - k) 0 = st.weights.getD k 0 := by
  obtain ⟨wA, hA, hB, hl1, hl2, _, _, _, _, _, _, _, h2s⟩ := mk_ok_elim hok
  have hwA := mkWeightsA_length _ _ _ _ _ _ _ _ hA
  have hwlen : st.weights.length = st.len1side := by
    rw [hl1]
    exact mkWeightsB_length _ _ _ _ _ _ _ _ _ _ _ hB hwA
  have hside : st.len2side = 2 * (st.len1side - 1) := hl2
  refine ⟨hwlen, ?_, ?_⟩
  · rw [h2s, hside, twoSide_length st.weights st.len1side hwlen h2le]
  · intro k hk
    rw [h2s, hside]
    exact ⟨twoSide_getD_hi st.weights st.len1side k hwlen h2le hk,
      twoSide_getD_lo st.weights st.len1side k hwlen h2le hk⟩

theorem C4_witness :
    mkInnerProduct (fun q => q) (fun _ _ => 1) (fun _ _ => 1) 0 none 1 (1/2)
        (.analytic (fun _ => 1)) false 0
      = .ok ⟨0, 1, 1, 1/2, 1/2, 3, 4, 0, 2, [1, 1, 0], [0, 1, 1, 1]⟩
    ∧ (([0, 1, 1, 1] : List ℚ).length = 2 * 3 - 2
       ∧ ([0, 1, 1, 1] : List ℚ).getD (3 - 1 + 1) 0 = ([1, 1, 0] : List ℚ).getD 1 0
       ∧ ([0, 1, 1, 1] : List ℚ).getD (3 - 1 - 1) 0 = ([1, 1, 0] : List ℚ).getD 1 0) := by
  have hok : mkInnerProduct (fun q => q) (fun _ _ => 1) (fun _ _ => 1) 0 none 1
      (1/2) (.analytic (fun _ => 1)) false 0
      = .ok ⟨0, 1, 1, 1/2, 1/2, 3, 4, 0, 2, [1, 1, 0], [0, 1, 1, 1]⟩ := by
    norm_num [mkInnerProduct, mkWeightsA, mkWeightsB, fillAnalytic, intRange,
      pyInt, pyRound, npSet, twoSide, npSliceAssign, Except.bind,
      List.range_succ, List.foldlM]
    rfl
  have h := C4_twoside_mirror (fun q => q) (fun _ _ => 1) (fun _ _ => 1) 0 none 1
    (1/2) (.analytic (fun _ => 1)) false 0
    ⟨0, 1, 1, 1/2, 1/2, 3, 4, 0, 2, [1, 1, 0], [0, 1, 1, 1]⟩ hok (by decide)
  exact ⟨hok, h.2.1, (h.2.2 1 (by decide)).1, (h.2.2 1 (by decide)).2⟩

/-- C2 (amended): for the two sampled PSD sources (`REAL8FrequencySeries`
and raw array), a zero PSD bin yields a zero weight at that bin and
construction never raises a division error; the closed-form-callable
(`analyticPSD_Q is True`) path, by contrast, divides by the PSD value
unguarded, so a zero bin there raises a ZeroDivisionError — see the
counterexample. -/
theorem C2_zero_psd_bins (sq : ℚ → ℚ) (rK fK : ℕ → ℕ → Cq) (fLow : ℚ)
    (fMO : Option ℚ) (fNyq dF : ℚ) (q : Bool) (T : ℚ) (f0 psdDF : ℚ)
    (data : List ℚ) :
    (mkInnerProduct sq rK fK fLow fMO fNyq dF (.series f0 psdDF data) q T
        ≠ .error .zeroDivision) ∧
    (mkInnerProduct sq rK fK fLow fMO fNyq dF (.array data) q T
        ≠ .error .zeroDivision) ∧
    (∀ st (j : ℕ), mkInnerProduct sq rK fK fLow fMO fNyq dF (.array data) false T
        = .ok st → 0 ≤ st.minIdx → npGet data (j : ℤ) = 0 →
        st.weights.getD j 0 = 0) ∧
    (∀ st (j : ℕ), mkInnerProduct sq rK fK fLow fMO fNyq dF (.series f0 psdDF data)
        false T = .ok st → 0 ≤ st.minIdx → npGet data (j : ℤ) = 0 →
        st.weights.getD j 0 = 0) := by
  refine ⟨mk_no_zeroDivision _ _ _ _ _ _ _ _ _ _
      (mkWeightsA_sampled_no_zeroDivision _ _ _ _ _ _ _ (fun S h => by cases h)),
    mk_no_zeroDivision _ _ _ _ _ _ _ _ _ _
      (mkWeightsA_sampled_no_zeroDivision _ _ _ _ _ _ _ (fun S h => by cases h)),
    ?_, ?_⟩
  · intro st j hok hmin hz
    obtain ⟨wA, hA, hB, hl1, _, _, _, _, _, _, hmin', _, _⟩ := mk_ok_elim hok
    have hwa := mkWeightsA_array_ok _ _ _ _ _ _ _ _ hA
    have hwB := mkWeightsB_false_ok _ _ _ _ _ _ _ _ _ _ hB
    rw [hwB, hwa]
    rw [fillSampled_getD_zero_bin _ _ _ _ _ (by rw [← hmin']; exact hmin) hz]
    exact getD_replicate_zero _ _
  · intro st j hok hmin hz
    obtain ⟨wA, hA, hB, hl1, _, _, _, _, _, _, hmin', _, _⟩ := mk_ok_elim hok
    have hwa := mkWeightsA_series_ok _ _ _ _ _ _ _ _ _ _ hA
    have hwB := mkWeightsB_false_ok _ _ _ _ _ _ _ _ _ _ hB
    rw [hwB, hwa]
    rw [fillSampled_getD_zero_bin _ _ _ _ _ (by rw [← hmin']; exact hmin) hz]
    exact getD_replicate_zero _ _

theorem C2_witness :
    (mkInnerProduct (fun q => q) (fun _ _ => 1) (fun _ _ => 1) 0 none 1 (1/2)
        (.array [1, 0, 1]) false 0 ≠ .error .zeroDivision)
    ∧ (∀ st, mkInnerProduct (fun q => q) (fun _ _ => 1) (fun _ _ => 1) 0 none 1
        (1/2) (.array [1, 0, 1]) false 0 = .ok st → 0 ≤ st.minIdx →
        st.weights.getD 1 0 = 0) := by
  have h := C2_zero_psd_bins (fun q => q) (fun _ _ => 1) (fun _ _ => 1) 0 none 1
    (1/2) false 0 0 (1/2) [1, 0, 1]
  refine ⟨h.2.1, fun st hok hmin => ?_⟩
  exact h.2.2.1 st 1 hok hmin (by norm_num [npGet])

/-- C2 counterexample: the claim as stated covers the closed-form callable
source too, but there a PSD that is zero at an in-band bin makes `1./psd(f)`
raise ZeroDivisionError instead of producing a zero weight. -/
theorem C2_counterexample :
    mkInnerProduct (fun q => q) (fun _ _ => 1) (fun _ _ => 1) 0 none 1 (1/2)
      (.analytic (fun _ => 0)) false 0 = .error .zeroDivision := by
  norm_num [mkInnerProduct, mkWeightsA, mkWeightsB, fillAnalytic, intRange,
    pyInt, pyRound, npSet, Except.bind, Bind.bind, List.range_succ, List.foldlM]

/-- C7: with inverse-spectrum truncation enabled, construction fails with a
configuration error when `N_spec = int(T_spec/deltaT)` is not strictly less
than `len2side/2` (integer division), and succeeds — performing the
truncation — when `N_spec` is strictly below that bound.  `st₀` is the same
configuration constructed without truncation, fixing the spectral
dimensions. -/
theorem C7_inv_spec_trunc (sq : ℚ → ℚ) (rK fK : ℕ → ℕ → Cq) (fLow : ℚ)
    (fMO : Option ℚ) (fNyq dF : ℚ) (psd : PSDSource) (T : ℚ) (st₀ : IPState)
    (hok : mkInnerProduct sq rK fK fLow fMO fNyq dF psd false T = .ok st₀) :
    (¬ (pyInt (T / (1 / 2 / fNyq)) < (st₀.len2side : ℤ) / 2) →
      mkInnerProduct sq rK fK fLow fMO fNyq dF psd true T
        = .error .configuration)
    ∧ (pyInt (T / (1 / 2 / fNyq)) < (st₀.len2side : ℤ) / 2 →
      ∃ st, mkInnerProduct sq rK fK fLow fMO fNyq dF psd true T = .ok st ∧
        st.weights = invSpecTrunc sq rK fK dF (1 / 2 / fNyq) st₀.len1side
          st₀.len2side (pyInt (T / (1 / 2 / fNyq))) st₀.weights ∧
        st.weights2side = twoSide st₀.len2side st.weights) := by
  obtain ⟨wA, hA, hB, hl1, hl2, _, _, _, _, _, _, _, _⟩ := mk_ok_elim hok
  have hwAeq : st₀.weights = wA :=
    mkWeightsB_false_ok _ _ _ _ _ _ _ _ _ _ hB
  have hn2 : 2 * (((pyInt (fNyq / dF) + 1).toNat) - 1) = st₀.len2side := by
    rw [hl2, hl1]
  have hn1 : (pyInt (fNyq / dF) + 1).toNat = st₀.len1side := hl1.symm
  constructor
  · intro hbad
    unfold mkInnerProduct
    rw [hA]
    simp only [Except.bind]
    unfold mkWeightsB
    rw [if_pos rfl, hn2, if_pos hbad]
  · intro hgood
    unfold mkInnerProduct
    rw [hA]
    simp only [Except.bind]
    unfold mkWeightsB
    rw [if_pos rfl, hn2, if_neg (not_not_intro hgood)]
    simp only [Except.bind]
    refine ⟨_, rfl, ?_, ?_⟩
    · simp only [hn2, hn1, hwAeq]
    · simp only [hn2, hn1, hwAeq]

theorem C7_witness :
    (mkInnerProduct (fun q => q) (fun _ _ => 1) (fun _ _ => 1) 0 none 1 (1/2)
        (.analytic (fun _ => 1)) true 10 = .error .configuration)
    ∧ (∃ st, mkInnerProduct (fun q => q) (fun _ _ => 1) (fun _ _ => 1) 0 none 1
        (1/2) (.analytic (fun _ => 1)) true (1/2) = .ok st ∧
        st.weights = invSpecTrunc (fun q => q) (fun _ _ => 1) (fun _ _ => 1)
          (1/2) (1 / 2 / 1) 3 4 (pyInt ((1/2) / (1 / 2 / 1))) [1, 1, 0] ∧
        st.weights2side = twoSide 4 st.weights) := by
  have hok1 : mkInnerProduct (fun q => q) (fun _ _ => 1) (fun _ _ => 1) 0 none 1
      (1/2) (.analytic (fun _ => 1)) false 10
      = .ok ⟨0, 1, 1, 1/2, 1/2, 3, 4, 0, 2, [1, 1, 0], [0, 1, 1, 1]⟩ := by
    norm_num [mkInnerProduct, mkWeightsA, mkWeightsB, fillAnalytic, intRange,
      pyInt, pyRound, npSet, twoSide, npSliceAssign, Except.bind,
      List.range_succ, List.foldlM]
    rfl
  have hok2 : mkInnerProduct (fun q => q) (fun _ _ => 1) (fun _ _ => 1) 0 none 1
      (1/2) (.analytic (fun _ => 1)) false (1/2)
      = .ok ⟨0, 1, 1, 1/2, 1/2, 3, 4, 0, 2, [1, 1, 0], [0, 1, 1, 1]⟩ := by
    norm_num [mkInnerProduct, mkWeightsA, mkWeightsB, fillAnalytic, intRange,
      pyInt, pyRound, npSet, twoSide, npSliceAssign, Except.bind,
      List.range_succ, List.foldlM]
    rfl
  have h1 := (C7_inv_spec_trunc (fun q => q) (fun _ _ => 1) (fun _ _ => 1) 0
    none 1 (1/2) (.analytic (fun _ => 1)) 10 _ hok1).1
    (by norm_num [pyInt])
  have h2 := (C7_inv_spec_trunc (fun q => q) (fun _ _ => 1) (fun _ _ => 1) 0
    none 1 (1/2) (.analytic (fun _ => 1)) (1/2) _ hok2).2
    (by norm_num [pyInt])
  exact ⟨h1, h2⟩

/-- C10: the claim says that with `inv_spec_trunc_Q=True` and `T_spec=0.`
the truncation is silently skipped and the weights equal the plain
reciprocal-PSD weights.  The code is wrong: CPython evaluates
`T_spec is not 0.` by object identity, which is True for any runtime float
equal to `0.0` (the default argument included), so the truncation runs with
`N_spec = 0`, zeroes the whole time-domain workspace, and produces
identically zero weights — for any square-root model and any FFT kernels.
The flag-off construction of the same configuration gives `[1, 1, 0]`. -/
theorem C10_trunc_zero_bug (sq : ℚ → ℚ) (rK fK : ℕ → ℕ → Cq) :
    ∃ stT stF,
      mkInnerProduct sq rK fK 0 none 1 (1/2) (.analytic (fun _ => 1)) true 0
        = .ok stT
      ∧ mkInnerProduct sq rK fK 0 none 1 (1/2) (.analytic (fun _ => 1)) false 0
        = .ok stF
      ∧ stT.weights = [0, 0, 0] ∧ stF.weights = [1, 1, 0]
      ∧ stT.weights ≠ stF.weights := by
  refine ⟨⟨0, 1, 1, 1/2, 1/2/1, 3, 4, 0, 2, [0, 0, 0], [0, 0, 0, 0]⟩,
    ⟨0, 1, 1, 1/2, 1/2/1, 3, 4, 0, 2, [1, 1, 0], [0, 1, 1, 1]⟩,
    ?_, ?_, rfl, rfl, by decide⟩
  · norm_num [mkInnerProduct, mkWeightsA, mkWeightsB, fillAnalytic, intRange,
      pyInt, pyRound, npSet, twoSide, npSliceAssign, Except.bind, Bind.bind,
      List.range_succ, List.foldlM, invSpecTrunc, real8FreqTimeFFT,
      real8TimeFreqFFT, zeroEnds, idxSum, Int.fdiv]
    rfl
  · norm_num [mkInnerProduct, mkWeightsA, mkWeightsB, fillAnalytic, intRange,
      pyInt, pyRound, npSet, twoSide, npSliceAssign, Except.bind, Bind.bind,
      List.range_succ, List.foldlM]
    rfl

theorem sqrt_scale_abs (a z : ℚ) (ha : 0 ≤ a) :
    Real.sqrt ((a : ℝ) * Real.sqrt (((z * z : ℚ)) : ℝ))
      = Real.sqrt |((a * z : ℚ) : ℝ)| := by
  have hz : ((z * z : ℚ) : ℝ) = (z : ℝ) * (z : ℝ) := by push_cast; ring
  rw [hz, Real.sqrt_mul_self_eq_abs]
  congr 1
  push_cast
  rw [abs_mul, abs_of_nonneg (by exact_mod_cast ha : (0 : ℝ) ≤ (a : ℝ))]

/-- C6: for each non-maximizing convention, the code's
`norm(h) = np.sqrt(scale·deltaF·np.abs(val))` (with `np.abs(val)` the
complex magnitude `√(normSq val)` of the accumulator) equals
`sqrt(|ip(h,h)|)` for that convention — `scale = 4` one-sided, `2`
two-sided — and is real and non-negative.  For `RealIP`, `|ip(h,h)|` is the
real absolute value of the returned real; for the complex conventions it is
the complex magnitude `√(normSq ip(h,h))`. -/
theorem C6_norm_formulas (st : IPState) (h g : FreqSeries)
    (hdF : 0 ≤ st.deltaF)
    (hl : h.data.length = st.len1side) (hdf : |h.deltaF - st.deltaF| ≤ TOL_DF)
    (hg : g.data.length = st.len2side) (hdg : |g.deltaF - st.deltaF| ≤ TOL_DF) :
    ∃ v r c v2 c2,
      oneSidedNormArg st h = .ok v ∧
      realIPip st h h = .ok r ∧
      hermIPip st h h = .ok c ∧
      twoSidedNormArg st g = .ok v2 ∧
      complexIPip st g g = .ok c2 ∧
      Real.sqrt (((4 * st.deltaF : ℚ) : ℝ) * Real.sqrt ((Cq.normSq v : ℚ) : ℝ))
        = Real.sqrt |((r : ℚ) : ℝ)| ∧
      Real.sqrt (((4 * st.deltaF : ℚ) : ℝ) * Real.sqrt ((Cq.normSq v : ℚ) : ℝ))
        = Real.sqrt (Real.sqrt ((Cq.normSq c : ℚ) : ℝ)) ∧
      Real.sqrt (((2 * st.deltaF : ℚ) : ℝ) * Real.sqrt ((Cq.normSq v2 : ℚ) : ℝ))
        = Real.sqrt (Real.sqrt ((Cq.normSq c2 : ℚ) : ℝ)) ∧
      0 ≤ Real.sqrt (((4 * st.deltaF : ℚ) : ℝ)
            * Real.sqrt ((Cq.normSq v : ℚ) : ℝ)) ∧
      0 ≤ Real.sqrt (((2 * st.deltaF : ℚ) : ℝ)
            * Real.sqrt ((Cq.normSq v2 : ℚ) : ℝ)) := by
  have hds : |h.deltaF - h.deltaF| ≤ TOL_DF := by
    rw [sub_self, abs_zero]; norm_num [TOL_DF]
  have hdsg : |g.deltaF - g.deltaF| ≤ TOL_DF := by
    rw [sub_self, abs_zero]; norm_num [TOL_DF]
  refine ⟨wSum h.data h.data st.weights,
    4 * st.deltaF * (wSum h.data h.data st.weights).re,
    Cq.ofRat (4 * st.deltaF) * wSum h.data h.data st.weights,
    wSum g.data g.data st.weights2side,
    Cq.ofRat (2 * st.deltaF) * wSum g.data g.data st.weights2side,
    ?_, ?_, ?_, ?_, ?_, ?_, ?_, ?_, ?_, ?_⟩
  · unfold oneSidedNormArg
    rw [if_neg (by simp [hl]), if_neg (not_not_intro hdf)]
  · unfold realIPip
    rw [if_neg (by simp [hl]), if_neg (by simp [hl]),
      if_neg (not_not_intro ⟨hds, hdf⟩)]
  · unfold hermIPip
    rw [if_neg (by simp [hl]), if_neg (by simp [hl]),
      if_neg (not_not_intro ⟨hds, hdf⟩)]
  · unfold twoSidedNormArg
    rw [if_neg (by simp [hg]), if_neg (not_not_intro hdg)]
  · unfold complexIPip
    rw [if_neg (by simp), if_neg (by simp [hg]),
      if_neg (not_not_intro ⟨hdsg, hdg⟩)]
  · rw [wSum_self h.data st.weights, Cq.normSq_ofRat, Cq.ofRat_re]
    exact sqrt_scale_abs (4 * st.deltaF) _ (by linarith)
  · rw [wSum_self h.data st.weights, ← Cq.ofRat_mul, Cq.normSq_ofRat,
      Cq.normSq_ofRat]
    rw [show (((4 * st.deltaF
          * (List.zipWith (fun x c => Cq.normSq x * c) h.data st.weights).sum)
        * (4 * st.deltaF
          * (List.zipWith (fun x c => Cq.normSq x * c) h.data st.weights).sum)
        : ℚ) : ℝ)
        = ((4 * st.deltaF
            * (List.zipWith (fun x c => Cq.normSq x * c) h.data st.weights).sum
            : ℚ) : ℝ)
          * ((4 * st.deltaF
            * (List.zipWith (fun x c => Cq.normSq x * c) h.data st.weights).sum
            : ℚ) : ℝ) by push_cast; ring,
      Real.sqrt_mul_self_eq_abs]
    exact sqrt_scale_abs (4 * st.deltaF) _ (by linarith)
  · rw [wSum_self g.data st.weights2side, ← Cq.ofRat_mul, Cq.normSq_ofRat,
      Cq.normSq_ofRat]
    rw [show (((2 * st.deltaF
          * (List.zipWith (fun x c => Cq.normSq x * c) g.data st.weights2side).sum)
        * (2 * st.deltaF
          * (List.zipWith (fun x c => Cq.normSq x * c) g.data st.weights2side).sum)
        : ℚ) : ℝ)
        = ((2 * st.deltaF
            * (List.zipWith (fun x c => Cq.normSq x * c) g.data st.weights2side).sum
            : ℚ) : ℝ)
          * ((2 * st.deltaF
            * (List.zipWith (fun x c => Cq.normSq x * c) g.data st.weights2side).sum
            : ℚ) : ℝ) by push_cast; ring,
      Real.sqrt_mul_self_eq_abs]
    exact sqrt_scale_abs (2 * st.deltaF) _ (by linarith)
  · exact Real.sqrt_nonneg _
  · exact Real.sqrt_nonneg _

theorem C6_witness :
    ∃ v r c v2 c2,
      oneSidedNormArg ⟨0, 1, 1, 2/3, 1/2, 2, 2, 0, 2, [1, 1], [1, 1]⟩
          ⟨2/3, [1, 1]⟩ = .ok v ∧
      realIPip ⟨0, 1, 1, 2/3, 1/2, 2, 2, 0, 2, [1, 1], [1, 1]⟩
          ⟨2/3, [1, 1]⟩ ⟨2/3, [1, 1]⟩ = .ok r ∧
      hermIPip ⟨0, 1, 1, 2/3, 1/2, 2, 2, 0, 2, [1, 1], [1, 1]⟩
          ⟨2/3, [1, 1]⟩ ⟨2/3, [1, 1]⟩ = .ok c ∧
      twoSidedNormArg ⟨0, 1, 1, 2/3, 1/2, 2, 2, 0, 2, [1, 1], [1, 1]⟩
          ⟨2/3, [1, 1]⟩ = .ok v2 ∧
      complexIPip ⟨0, 1, 1, 2/3, 1/2, 2, 2, 0, 2, [1, 1], [1, 1]⟩
          ⟨2/3, [1, 1]⟩ ⟨2/3, [1, 1]⟩ = .ok c2 ∧
      Real.sqrt (((4 * (2/3 : ℚ) : ℚ) : ℝ) * Real.sqrt ((Cq.normSq v : ℚ) : ℝ))
        = Real.sqrt |((r : ℚ) : ℝ)| ∧
      Real.sqrt (((4 * (2/3 : ℚ) : ℚ) : ℝ) * Real.sqrt ((Cq.normSq v : ℚ) : ℝ))
        = Real.sqrt (Real.sqrt ((Cq.normSq c : ℚ) : ℝ)) ∧
      Real.sqrt (((2 * (2/3 : ℚ) : ℚ) : ℝ) * Real.sqrt ((Cq.normSq v2 : ℚ) : ℝ))
        = Real.sqrt (Real.sqrt ((Cq.normSq c2 : ℚ) : ℝ)) ∧
      0 ≤ Real.sqrt (((4 * (2/3 : ℚ) : ℚ) : ℝ)
            * Real.sqrt ((Cq.normSq v : ℚ) : ℝ)) ∧
      0 ≤ Real.sqrt (((2 * (2/3 : ℚ) : ℚ) : ℝ)
            * Real.sqrt ((Cq.normSq v2 : ℚ) : ℝ)) :=
  C6_norm_formulas ⟨0, 1, 1, 2/3, 1/2, 2, 2, 0, 2, [1, 1], [1, 1]⟩
    ⟨2/3, [1, 1]⟩ ⟨2/3, [1, 1]⟩ (by norm_num) (by decide)
    (by rw [show ((2/3 : ℚ) - (2/3 : ℚ)) = 0 by norm_num, abs_zero]
        norm_num [TOL_DF])
    (by decide)
    (by rw [show ((2/3 : ℚ) - (2/3 : ℚ)) = 0 by norm_num, abs_zero]
        norm_num [TOL_DF])

/-- C8 (amended): calling `Overlap.ip(h,h)` (identical arguments,
non-negative weights — the image of a non-negative PSD — and a vanishing
Nyquist-bin weight, which the constructor guarantees whenever
`fNyq/deltaF` is integral) yields an overlap series whose maximum
magnitude occurs at time-shift index `0`, and the maximized overlap
`rho = √(maxNormSq)` equals `ip(h,h)` of the non-maximizing Hermitian
convention, i.e. `norm(h)²`.  The kernel hypotheses state the two
analytic facts about the external reverse-FFT plan that the argument
needs: row `0` of the kernel is all ones and every kernel factor has unit
magnitude.  (Without the vanishing-Nyquist hypothesis the equality fails —
see the counterexample.) -/
theorem C8_overlap_zero_lag (K : ℕ → ℕ → Cq) (st : IPState) (h : FreqSeries)
    (hK0 : ∀ k, K 0 k = 1) (hKu : ∀ j k, Cq.normSq (K j k) = 1)
    (hl : h.data.length = st.len1side)
    (hdf : |h.deltaF - st.deltaF| ≤ TOL_DF)
    (h2le : 2 ≤ st.len1side) (hside : st.len2side = 2 * (st.len1side - 1))
    (hw : st.weights.length = st.len1side)
    (hwpos : ∀ c ∈ st.weights, 0 ≤ c)
    (hnyq : st.weights.getD (st.len1side - 1) 0 = 0)
    (hdF : 0 ≤ st.deltaF) :
    ∃ ol v,
      overlapSeries K st h h = .ok ol ∧
      hermIPip st h h = .ok v ∧ v.im = 0 ∧ 0 ≤ v.re ∧
      (∀ z ∈ ol, Cq.normSq z ≤ Cq.normSq (ol.getD 0 0)) ∧
      argMaxNormSq ol = 0 ∧
      maxNormSq ol = Cq.normSq (ol.getD 0 0) ∧
      Real.sqrt ((maxNormSq ol : ℚ) : ℝ) = ((v.re : ℚ) : ℝ) := by
  have hds : |h.deltaF - h.deltaF| ≤ TOL_DF := by
    rw [sub_self, abs_zero]; norm_num [TOL_DF]
  have hserie : overlapSeries K st h h
      = .ok (freqTimeFFT K st.deltaF st.len2side (overlapIntgd st h h)) := by
    unfold overlapSeries
    rw [if_neg (by simp), if_neg (by simp [hl]),
      if_neg (not_not_intro ⟨hds, hdf⟩)]
  have hherm : hermIPip st h h
      = .ok (Cq.ofRat (4 * st.deltaF) * wSum h.data h.data st.weights) := by
    unfold hermIPip
    rw [if_neg (by simp [hl]), if_neg (by simp [hl]),
      if_neg (not_not_intro ⟨hds, hdf⟩)]
  have hvval : Cq.ofRat (4 * st.deltaF) * wSum h.data h.data st.weights
      = Cq.ofRat (4 * st.deltaF
          * (List.zipWith (fun x c => Cq.normSq x * c) h.data st.weights).sum) := by
    rw [wSum_self, ← Cq.ofRat_mul]
  have hzs0 : 0 ≤ (List.zipWith (fun x c => Cq.normSq x * c) h.data st.weights).sum :=
    zipWith_normSq_sum_nonneg _ _ hwpos
  have hent := overlapIntgd_entries st h hl hw h2le hside hwpos
  have hsum := overlapIntgd_re_sum st h hl hw h2le hside hnyq
  have hollen : (freqTimeFFT K st.deltaF st.len2side (overlapIntgd st h h)).length
      = st.len2side := freqTimeFFT_length _ _ _ _
  have hn2pos : 0 < st.len2side := by omega
  have holj : ∀ j, j < st.len2side →
      (freqTimeFFT K st.deltaF st.len2side (overlapIntgd st h h)).getD j 0
        = Cq.ofRat st.deltaF
            * idxSum (fun k z => z * K j k) 0 (overlapIntgd st h h) :=
    fun j hj => freqTimeFFT_getD K st.deltaF st.len2side (overlapIntgd st h h) j hj
  have hol0 : (freqTimeFFT K st.deltaF st.len2side (overlapIntgd st h h)).getD 0 0
      = Cq.ofRat (st.deltaF
          * (4 * (List.zipWith (fun x c => Cq.normSq x * c) h.data st.weights).sum)) := by
    rw [holj 0 hn2pos,
      idxSum_kernel_one (K 0) hK0 (overlapIntgd st h h)
        (fun z hz => (hent z hz).1) 0,
      hsum, ← Cq.ofRat_mul]
  have hbound : ∀ j, j < st.len2side →
      Cq.normSq ((freqTimeFFT K st.deltaF st.len2side (overlapIntgd st h h)).getD j 0)
        ≤ Cq.normSq ((freqTimeFFT K st.deltaF st.len2side (overlapIntgd st h h)).getD 0 0) := by
    intro j hj
    rw [holj j hj, hol0, Cq.normSq_mul, Cq.normSq_ofRat, Cq.normSq_ofRat]
    have hle := idxSum_normSq_le (K j) (hKu j) (overlapIntgd st h h) hent 0
    rw [hsum] at hle
    have hnn := Cq.normSq_nonneg (idxSum (fun k z => z * K j k) 0 (overlapIntgd st h h))
    nlinarith [mul_self_nonneg st.deltaF, hzs0]
  have hmem : ∀ z ∈ freqTimeFFT K st.deltaF st.len2side (overlapIntgd st h h),
      Cq.normSq z
        ≤ Cq.normSq ((freqTimeFFT K st.deltaF st.len2side (overlapIntgd st h h)).getD 0 0) := by
    intro z hz
    obtain ⟨j, hj, rfl⟩ := List.mem_iff_getElem.mp hz
    rw [← List.getD_eq_getElem _ 0 hj]
    exact hbound j (by rwa [hollen] at hj)
  have h0mem : (freqTimeFFT K st.deltaF st.len2side (overlapIntgd st h h)).getD 0 0
      ∈ freqTimeFFT K st.deltaF st.len2side (overlapIntgd st h h) := by
    have hlt : 0 < (freqTimeFFT K st.deltaF st.len2side (overlapIntgd st h h)).length := by
      rw [hollen]; omega
    rw [List.getD_eq_getElem _ 0 hlt]
    exact List.getElem_mem hlt
  have hmax : maxNormSq (freqTimeFFT K st.deltaF st.len2side (overlapIntgd st h h))
      = Cq.normSq ((freqTimeFFT K st.deltaF st.len2side (overlapIntgd st h h)).getD 0 0) :=
    maxNormSq_eq _ _ h0mem hmem
  have hargmax : argMaxNormSq (freqTimeFFT K st.deltaF st.len2side (overlapIntgd st h h))
      = 0 := by
    rcases holc : freqTimeFFT K st.deltaF st.len2side (overlapIntgd st h h) with
      _ | ⟨a, t⟩
    · rw [holc] at hollen
      simp at hollen
      omega
    · have hhead : (Cq.normSq a == maxNormSq (a :: t)) = true := by
        rw [beq_iff_eq]
        rw [holc] at hmax
        rw [hmax, List.getD_cons_zero]
      unfold argMaxNormSq
      rw [List.findIdx?_cons, if_pos hhead]
      rfl
  refine ⟨freqTimeFFT K st.deltaF st.len2side (overlapIntgd st h h),
    Cq.ofRat (4 * st.deltaF
      * (List.zipWith (fun x c => Cq.normSq x * c) h.data st.weights).sum),
    hserie, by rw [hherm, hvval], rfl, ?_, hmem, hargmax, hmax, ?_⟩
  · simp only [Cq.ofRat_re]
    exact mul_nonneg (by linarith) hzs0
  · rw [hmax, hol0, Cq.normSq_ofRat]
    rw [show (((st.deltaF * (4 * (List.zipWith (fun x c => Cq.normSq x * c)
          h.data st.weights).sum))
        * (st.deltaF * (4 * (List.zipWith (fun x c => Cq.normSq x * c)
          h.data st.weights).sum)) : ℚ) : ℝ)
        = ((st.deltaF * (4 * (List.zipWith (fun x c => Cq.normSq x * c)
            h.data st.weights).sum) : ℚ) : ℝ)
          * ((st.deltaF * (4 * (List.zipWith (fun x c => Cq.normSq x * c)
            h.data st.weights).sum) : ℚ) : ℝ) by push_cast; ring,
      Real.sqrt_mul_self_eq_abs]
    have hval : (0 : ℚ) ≤ st.deltaF
        * (4 * (List.zipWith (fun x c => Cq.normSq x * c) h.data st.weights).sum) :=
      mul_nonneg hdF (by linarith)
    rw [abs_of_nonneg (by exact_mod_cast hval)]
    simp only [Cq.ofRat_re]
    norm_cast
    ring

theorem C8_witness :
    ∃ ol v,
      overlapSeries (fun _ _ => 1)
          ⟨0, 1/2, 1, 1/2, 1/2, 3, 4, 0, 1, [1, 0, 0], [0, 0, 1, 0]⟩
          ⟨1/2, [1, ⟨0, 1⟩, ⟨2, 3⟩]⟩ ⟨1/2, [1, ⟨0, 1⟩, ⟨2, 3⟩]⟩ = .ok ol ∧
      hermIPip ⟨0, 1/2, 1, 1/2, 1/2, 3, 4, 0, 1, [1, 0, 0], [0, 0, 1, 0]⟩
          ⟨1/2, [1, ⟨0, 1⟩, ⟨2, 3⟩]⟩ ⟨1/2, [1, ⟨0, 1⟩, ⟨2, 3⟩]⟩ = .ok v ∧
      v.im = 0 ∧ 0 ≤ v.re ∧
      (∀ z ∈ ol, Cq.normSq z ≤ Cq.normSq (ol.getD 0 0)) ∧
      argMaxNormSq ol = 0 ∧
      maxNormSq ol = Cq.normSq (ol.getD 0 0) ∧
      Real.sqrt ((maxNormSq ol : ℚ) : ℝ) = ((v.re : ℚ) : ℝ) :=
  C8_overlap_zero_lag (fun _ _ => 1)
    ⟨0, 1/2, 1, 1/2, 1/2, 3, 4, 0, 1, [1, 0, 0], [0, 0, 1, 0]⟩
    ⟨1/2, [1, ⟨0, 1⟩, ⟨2, 3⟩]⟩
    (fun _ => rfl) (fun _ _ => by norm_num [Cq.normSq])
    (by decide)
    (by rw [show ((1/2 : ℚ) - (1/2 : ℚ)) = 0 by norm_num, abs_zero]
        norm_num [TOL_DF])
    (by decide) (by decide) (by decide) (by decide) (by decide) (by norm_num)

/-- C8 counterexample: the claim as stated fails when the Nyquist-bin
weight is non-zero, which the constructor produces when `fNyq/deltaF` is
not an integer (`fNyq=1, deltaF=2/3`, `len1side = len2side = 2`,
weights `[1,1]`).  `Overlap.ip` drops the Nyquist term of the integrand,
so for `h = [0, 1]` the whole overlap series is zero (here with the exact
two-point reverse-DFT kernel `(-1)^(j·k)`), while `ip(h,h)` of the
Hermitian convention is `8/3`. -/
theorem C8_counterexample :
    mkInnerProduct (fun q => q)
        (fun j k => if (j * k) % 2 = 0 then (1 : Cq) else -1)
        (fun j k => if (j * k) % 2 = 0 then (1 : Cq) else -1) 0 none 1 (2/3)
        (.array [1, 1, 1]) false 0
      = .ok ⟨0, 1, 1, 2/3, 1/2, 2, 2, 0, 2, [1, 1], [1, 1]⟩
    ∧ overlapSeries (fun j k => if (j * k) % 2 = 0 then (1 : Cq) else -1)
        ⟨0, 1, 1, 2/3, 1/2, 2, 2, 0, 2, [1, 1], [1, 1]⟩
        ⟨2/3, [0, 1]⟩ ⟨2/3, [0, 1]⟩ = .ok [0, 0]
    ∧ hermIPip ⟨0, 1, 1, 2/3, 1/2, 2, 2, 0, 2, [1, 1], [1, 1]⟩
        ⟨2/3, [0, 1]⟩ ⟨2/3, [0, 1]⟩ = .ok (Cq.ofRat (8/3))
    ∧ maxNormSq [(0 : Cq), 0] = 0
    ∧ Real.sqrt ((maxNormSq [(0 : Cq), 0] : ℚ) : ℝ)
        ≠ (((Cq.ofRat (8/3) : Cq).re : ℚ) : ℝ) := by
  refine ⟨?_, ?_, ?_, ?_, ?_⟩
  · norm_num [mkInnerProduct, mkWeightsA, mkWeightsB, fillSampled, intRange,
      pyInt, pyRound, npSet, npGet, twoSide, npSliceAssign, Except.bind,
      List.range_succ, List.foldl]
    decide
  · unfold overlapSeries
    rw [if_neg (by decide), if_neg (by decide),
      if_neg (not_not_intro ⟨by rw [show ((2/3 : ℚ) - (2/3 : ℚ)) = 0
          by norm_num, abs_zero]; norm_num [TOL_DF],
        by rw [show ((2/3 : ℚ) - (2/3 : ℚ)) = 0 by norm_num, abs_zero]
           norm_num [TOL_DF]⟩)]
    norm_num [freqTimeFFT, overlapIntgd, wProd, idxSum, npSliceAssign,
      List.range_succ, Cq.conj, Cq.ofRat]
  · unfold hermIPip
    rw [if_neg (by decide), if_neg (by decide),
      if_neg (not_not_intro ⟨by rw [show ((2/3 : ℚ) - (2/3 : ℚ)) = 0
          by norm_num, abs_zero]; norm_num [TOL_DF],
        by rw [show ((2/3 : ℚ) - (2/3 : ℚ)) = 0 by norm_num, abs_zero]
           norm_num [TOL_DF]⟩)]
    norm_num [wSum, wProd, List.zipWith_cons_cons, Cq.conj, Cq.ofRat]
    ext <;> norm_num
  · norm_num [maxNormSq, Cq.normSq]
  · norm_num [maxNormSq, Cq.normSq, Cq.ofRat]

theorem overlapIpFull_ok_elim (K : ℕ → ℕ → Cq) (st : IPState) (os : OvState)
    (hp : Heap) (h1 h2 : FreqSeries) (o1 : Heap × ℚ × ℕ × ℕ)
    (h : overlapIpFull K st os hp h1 h2 = .ok o1) :
    o1 = ((((hp.write os.intgdRef (overlapIntgd st h1 h2)).write os.ovlpRef
              (freqTimeFFT K st.deltaF st.len2side
                ((hp.write os.intgdRef (overlapIntgd st h1 h2)).mem
                  os.intgdRef))).alloc
            (((hp.write os.intgdRef (overlapIntgd st h1 h2)).write os.ovlpRef
                (freqTimeFFT K st.deltaF st.len2side
                  ((hp.write os.intgdRef (overlapIntgd st h1 h2)).mem
                    os.intgdRef))).mem os.ovlpRef)).2,
          maxNormSq (((hp.write os.intgdRef (overlapIntgd st h1 h2)).write
              os.ovlpRef (freqTimeFFT K st.deltaF st.len2side
                ((hp.write os.intgdRef (overlapIntgd st h1 h2)).mem
                  os.intgdRef))).mem os.ovlpRef),
          argMaxNormSq (((hp.write os.intgdRef (overlapIntgd st h1 h2)).write
              os.ovlpRef (freqTimeFFT K st.deltaF st.len2side
                ((hp.write os.intgdRef (overlapIntgd st h1 h2)).mem
                  os.intgdRef))).mem os.ovlpRef),
          ((((hp.write os.intgdRef (overlapIntgd st h1 h2)).write os.ovlpRef
              (freqTimeFFT K st.deltaF st.len2side
                ((hp.write os.intgdRef (overlapIntgd st h1 h2)).mem
                  os.intgdRef))).alloc
            (((hp.write os.intgdRef (overlapIntgd st h1 h2)).write os.ovlpRef
                (freqTimeFFT K st.deltaF st.len2side
                  ((hp.write os.intgdRef (overlapIntgd st h1 h2)).mem
                    os.intgdRef))).mem os.ovlpRef)).1)) := by
  simp only [overlapIpFull] at h
  split at h
  · exact Except.noConfusion h
  · split at h
    · exact Except.noConfusion h
    · split at h
      · exact Except.noConfusion h
      · exact (Except.ok.inj h).symm

theorem covlpIpFull_ok_elim (K : ℕ → ℕ → Cq) (st : IPState) (os : OvState)
    (hp : Heap) (h1 h2 : FreqSeries) (o1 : Heap × ℚ × ℕ × ℕ)
    (h : covlpIpFull K st os hp h1 h2 = .ok o1) :
    o1 = ((((hp.write os.intgdRef (covlpIntgd st h1 h2)).write os.ovlpRef
              (freqTimeFFT K st.deltaF st.len2side
                ((hp.write os.intgdRef (covlpIntgd st h1 h2)).mem
                  os.intgdRef))).alloc
            (((hp.write os.intgdRef (covlpIntgd st h1 h2)).write os.ovlpRef
                (freqTimeFFT K st.deltaF st.len2side
                  ((hp.write os.intgdRef (covlpIntgd st h1 h2)).mem
                    os.intgdRef))).mem os.ovlpRef)).2,
          maxNormSq (((hp.write os.intgdRef (covlpIntgd st h1 h2)).write
              os.ovlpRef (freqTimeFFT K st.deltaF st.len2side
                ((hp.write os.intgdRef (covlpIntgd st h1 h2)).mem
                  os.intgdRef))).mem os.ovlpRef),
          argMaxNormSq (((hp.write os.intgdRef (covlpIntgd st h1 h2)).write
              os.ovlpRef (freqTimeFFT K st.deltaF st.len2side
                ((hp.write os.intgdRef (covlpIntgd st h1 h2)).mem
                  os.intgdRef))).mem os.ovlpRef),
          ((((hp.write os.intgdRef (covlpIntgd st h1 h2)).write os.ovlpRef
              (freqTimeFFT K st.deltaF st.len2side
                ((hp.write os.intgdRef (covlpIntgd st h1 h2)).mem
                  os.intgdRef))).alloc
            (((hp.write os.intgdRef (covlpIntgd st h1 h2)).write os.ovlpRef
                (freqTimeFFT K st.deltaF st.len2side
                  ((hp.write os.intgdRef (covlpIntgd st h1 h2)).mem
                    os.intgdRef))).mem os.ovlpRef)).1)) := by
  simp only [covlpIpFull] at h
  split at h
  · exact Except.noConfusion h
  · split at h
    · exact Except.noConfusion h
    · split at h
      · exact Except.noConfusion h
      · exact (Except.ok.inj h).symm

/-- C9: with `full_output` enabled, `Overlap.ip` and `ComplexOverlap.ip`
return a freshly allocated copy of the overlap series, not a reference to
the instance's scratch buffer: the returned reference is the fresh cell
`hp.next` (distinct from `self.intgd`/`self.ovlp`), it holds the overlap
series contents, and a subsequent `ip` call on the same instance — which
overwrites the scratch buffers and allocates its own fresh cell — leaves
the previously returned buffer unchanged. -/
theorem C9_defensive_copy (K : ℕ → ℕ → Cq) (st : IPState) (os : OvState)
    (hp : Heap) (h1 h2 g1 g2 : FreqSeries)
    (o1 o2 p1 p2 : Heap × ℚ × ℕ × ℕ)
    (hi : os.intgdRef < hp.next) (ho : os.ovlpRef < hp.next)
    (hfst : overlapIpFull K st os hp h1 h2 = .ok o1)
    (hsnd : overlapIpFull K st os o1.1 g1 g2 = .ok o2)
    (hfstC : covlpIpFull K st os hp h1 h2 = .ok p1)
    (hsndC : covlpIpFull K st os p1.1 g1 g2 = .ok p2) :
    o1.2.2.2 = hp.next ∧ o1.1.next = hp.next + 1 ∧
    o1.1.mem o1.2.2.2
      = freqTimeFFT K st.deltaF st.len2side (overlapIntgd st h1 h2) ∧
    o2.1.mem o1.2.2.2 = o1.1.mem o1.2.2.2 ∧
    p1.2.2.2 = hp.next ∧ p1.1.next = hp.next + 1 ∧
    p1.1.mem p1.2.2.2
      = freqTimeFFT K st.deltaF st.len2side (covlpIntgd st h1 h2) ∧
    p2.1.mem p1.2.2.2 = p1.1.mem p1.2.2.2 := by
  obtain rfl := overlapIpFull_ok_elim K st os hp h1 h2 o1 hfst
  obtain rfl := overlapIpFull_ok_elim K st os _ g1 g2 o2 hsnd
  obtain rfl := covlpIpFull_ok_elim K st os hp h1 h2 p1 hfstC
  obtain rfl := covlpIpFull_ok_elim K st os _ g1 g2 p2 hsndC
  refine ⟨rfl, rfl, ?_, ?_, rfl, rfl, ?_, ?_⟩ <;>
    simp [Heap.write, Heap.alloc, Function.update_same,
      Function.update_noteq (show hp.next ≠ os.intgdRef by omega),
      Function.update_noteq (show hp.next ≠ os.ovlpRef by omega),
      Function.update_noteq (show hp.next ≠ hp.next + 1 by omega)]


/-- Concrete instance data for exercising the full-output overlap calls. -/
def c9K : ℕ → ℕ → Cq := fun _ _ => 1

def c9st : IPState := ⟨0, 1, 1, 2/3, 1/2, 2, 2, 0, 2, [1, 1], [1, 1]⟩

def c9os : OvState := ⟨0, 1⟩

def c9hp : Heap := ⟨fun _ => [], 2⟩

def c9h : FreqSeries := ⟨2/3, [1, 1]⟩

theorem C9_witness :
    ovOutRef (overlapIpFull c9K c9st c9os c9hp c9h c9h) = 2 ∧
    (ovOutHeap (overlapIpFull c9K c9st c9os c9hp c9h c9h)).next = 3 ∧
    (ovOutHeap (overlapIpFull c9K c9st c9os c9hp c9h c9h)).mem 2
      = freqTimeFFT c9K c9st.deltaF c9st.len2side (overlapIntgd c9st c9h c9h) ∧
    (ovOutHeap (overlapIpFull c9K c9st c9os
        (ovOutHeap (overlapIpFull c9K c9st c9os c9hp c9h c9h)) c9h c9h)).mem 2
      = (ovOutHeap (overlapIpFull c9K c9st c9os c9hp c9h c9h)).mem 2 ∧
    ovOutRef (covlpIpFull c9K c9st c9os c9hp c9h c9h) = 2 ∧
    (ovOutHeap (covlpIpFull c9K c9st c9os c9hp c9h c9h)).next = 3 ∧
    (ovOutHeap (covlpIpFull c9K c9st c9os c9hp c9h c9h)).mem 2
      = freqTimeFFT c9K c9st.deltaF c9st.len2side (covlpIntgd c9st c9h c9h) ∧
    (ovOutHeap (covlpIpFull c9K c9st c9os
        (ovOutHeap (covlpIpFull c9K c9st c9os c9hp c9h c9h)) c9h c9h)).mem 2
      = (ovOutHeap (covlpIpFull c9K c9st c9os c9hp c9h c9h)).mem 2 := by
  have g1 : ¬ (c9h.data.length ≠ c9h.data.length) := by decide
  have g2 : ¬ (c9h.data.length ≠ c9st.len1side) := by decide
  have g2' : ¬ (c9h.data.length ≠ c9st.len2side) := by decide
  have g3 : ¬¬ (|c9h.deltaF - c9h.deltaF| ≤ TOL_DF ∧
      |c9h.deltaF - c9st.deltaF| ≤ TOL_DF) := by
    rw [not_not]
    constructor <;>
      (simp only [c9h, c9st]; rw [sub_self, abs_zero]; norm_num [TOL_DF])
  rcases hE1 : overlapIpFull c9K c9st c9os c9hp c9h c9h with e | o1
  · exfalso
    simp only [overlapIpFull] at hE1
    rw [if_neg g1, if_neg g2, if_neg g3] at hE1
    exact Except.noConfusion hE1
  rcases hF1 : covlpIpFull c9K c9st c9os c9hp c9h c9h with e | p1
  · exfalso
    simp only [covlpIpFull] at hF1
    rw [if_neg g1, if_neg g2', if_neg g3] at hF1
    exact Except.noConfusion hF1
  simp only [ovOutHeap, ovOutRef]
  rcases hE2 : overlapIpFull c9K c9st c9os o1.1 c9h c9h with e | o2
  · exfalso
    simp only [overlapIpFull] at hE2
    rw [if_neg g1, if_neg g2, if_neg g3] at hE2
    exact Except.noConfusion hE2
  rcases hF2 : covlpIpFull c9K c9st c9os p1.1 c9h c9h with e | p2
  · exfalso
    simp only [covlpIpFull] at hF2
    rw [if_neg g1, if_neg g2', if_neg g3] at hF2
    exact Except.noConfusion hF2
  simp only [ovOutHeap]
  obtain ⟨c1, c2, c3, c4, c5, c6, c7, c8⟩ :=
    C9_defensive_copy c9K c9st c9os c9hp c9h c9h c9h c9h o1 o2 p1 p2
      (by decide) (by decide) hE1 hE2 hF1 hF2
  rw [c1] at c3 c4
  rw [c5] at c7 c8
  exact ⟨c1, c2, c3, c4, c5, c6, c7, c8⟩

end LalSimUtils
